import Mathlib

/-!
Verification of the libsync3 core against its specification.

This file gives a shallow embedding, in Lean 4, of the Rust sources
`src/lib.rs` (signature / delta / apply over BLAKE3-hashed fixed-size
chunks) and `src/rolling.rs` (the Adler-32-family rolling checksum),
and proves or refutes the spec's claims about them.

Modelling conventions:
* Byte streams (`Read` sources) are pure `List Nat` values; a read from
  such a source never fails, so the `io::Result` values returned by the
  API are modelled as `Except String` values whose error case is never
  produced (exactly as the Rust code, run on an in-memory `Cursor`,
  never reaches its error branches).
* `blake3::hash` is modelled as a collision-free fingerprint; we use the
  block content itself as the fingerprint, so fingerprint equality is
  content equality.  All statements about hash-based matching hold up to
  BLAKE3 collision-freedom.
* Machine integers are `Nat`.  In `rolling.rs` the `u32` state `(a, b)`
  is reduced modulo 65521 at every construction site, and the in-chunk
  accumulators stay below `2^32` by the NMAX = 5552 bound of Adler-32,
  so plain `Nat` arithmetic agrees with the `u32` arithmetic there; the
  one place where a `u32` really can wrap — the product
  `n * old` in `roll`, whose factor `n` is the `usize → u32` cast of the
  caller's window size — is modelled with an explicit `% 2^32`.
-/

/-! ## The rolling checksum (`src/rolling.rs`) -/

/-- Constant `MOD` from `rolling.rs`: the Adler modulus 65521. -/
def MOD : Nat := 65521

/-- Constant `BLOCK_SIZE` from `rolling.rs`: the SIMD lane count, 32. -/
def BLOCK_SIZE : Nat := 32

/-- Constant `NMAX` from `rolling.rs`. -/
def NMAX : Nat := 5552

/-- Constant `CHUNK_SIZE` from `rolling.rs`: `(NMAX / BLOCK_SIZE) * BLOCK_SIZE`. -/
def CHUNK_SIZE : Nat := (NMAX / BLOCK_SIZE) * BLOCK_SIZE

/-- The value `2^32`, the wrap-around modulus of Rust's `u32`. -/
def U32 : Nat := 4294967296

/-- The `WEIGHTS` vector from `rolling.rs`: position 0 gets weight
`BLOCK_SIZE`, position 31 gets weight 1. -/
def WEIGHTS : List Nat :=
  [32, 31, 30, 29, 28, 27, 26, 25, 24, 23, 22, 21, 20, 19, 18, 17,
   16, 15, 14, 13, 12, 11, 10, 9, 8, 7, 6, 5, 4, 3, 2, 1]

/-- The `RollingChecksum` struct from `rolling.rs`. -/
structure RollingChecksum where
  a : Nat
  b : Nat
  count : Nat
deriving DecidableEq

/-- Rust's `data.chunks_exact(BLOCK_SIZE)` together with its `remainder()`:
the maximal list of full 32-byte blocks, plus the short tail.
The `Nat` argument is recursion fuel (any fuel above `l.length` gives
the true value; the public wrapper supplies enough). -/
def chunksExactGo : Nat → List Nat → List (List Nat) × List Nat
  | 0, l => ([], l)
  | fuel + 1, l =>
    if 32 ≤ l.length then
      let r := chunksExactGo fuel (l.drop 32)
      (l.take 32 :: r.1, r.2)
    else ([], l)

/-- Rust's `data.chunks_exact(32)` / `.remainder()` of `rolling.rs`. -/
def chunksExact32 (l : List Nat) : List (List Nat) × List Nat :=
  chunksExactGo (l.length + 1) l

/-- Split a list into consecutive pieces of `cs` elements (the last may
be short): Rust's `slice::chunks(cs)`.  Fueled recursion, wrapper below. -/
def chunksOfGo : Nat → Nat → List Nat → List (List Nat)
  | 0, _, _ => []
  | fuel + 1, cs, l =>
    if l = [] then [] else l.take cs :: chunksOfGo fuel cs (l.drop cs)

/-- Rust's `slice::chunks(cs)` (meaningful for `0 < cs`). -/
def chunksOf (cs : Nat) (l : List Nat) : List (List Nat) :=
  chunksOfGo (l.length + 1) cs l

/-- One iteration of the scalar tail loop of `process_chunk`
(`*a += byte; *b += *a;`), which is also the unreduced Adler step. -/
def adlerStep (st : Nat × Nat) (x : Nat) : Nat × Nat :=
  (st.1 + x, st.2 + st.1 + x)

/-- One iteration of the SIMD block loop of `process_chunk`: the state
is `(p, a_vec, b_acc)`; `p` gains the current lane sums BEFORE the block
is accumulated, `a_vec` gains the block lane-wise, and `b_acc` gains the
weighted block sum. -/
def simdStep (st : Nat × List Nat × Nat) (blk : List Nat) :
    Nat × List Nat × Nat :=
  (st.1 + st.2.1.sum,
   List.zipWith (· + ·) st.2.1 blk,
   st.2.2 + (List.zipWith (· * ·) blk WEIGHTS).sum)

namespace RollingChecksum

/-- Function `RollingChecksum::new()` from `rolling.rs`. -/
def new : RollingChecksum := ⟨1, 0, 0⟩

/-- Function `RollingChecksum::value()` from `rolling.rs`: `(b << 16) | a`. -/
def value (st : RollingChecksum) : Nat := (st.b <<< 16) ||| st.a

/-- Function `process_chunk` from `rolling.rs`: the SIMD inner loop.  The 32-lane
vector `a_vec` is a 32-element list, `reduce_sum` is `List.sum`, and the
lane-wise `+` and `*` are `zipWith`.  `p` accumulates the prefix sums
exactly as in the source (`p += a_vec.reduce_sum()` before the block is
added).  The scalar tail loop handles `remainder`. -/
def processChunk (a b : Nat) (data : List Nat) : Nat × Nat :=
  let br := chunksExact32 data
  let blockCount := br.1.length
  let res := br.1.foldl simdStep (a * blockCount, List.replicate 32 0, b)
  let a1 := a + res.2.1.sum
  let b1 := res.2.2 + res.1 * 32
  br.2.foldl adlerStep (a1, b1)

/-- One iteration of the chunk loop of `update`: run `process_chunk`,
then reduce both halves modulo `MOD`. -/
def updateChunkStep (ab : Nat × Nat) (c : List Nat) : Nat × Nat :=
  let r := processChunk ab.1 ab.2 c
  (r.1 % MOD, r.2 % MOD)

/-- Function `RollingChecksum::update` from `rolling.rs`: process `CHUNK_SIZE`
chunks, reducing `a` and `b` modulo `MOD` once per chunk. -/
def update (st : RollingChecksum) (data : List Nat) : RollingChecksum :=
  let res := (chunksOf CHUNK_SIZE data).foldl updateChunkStep (st.a, st.b)
  ⟨res.1, res.2, st.count + data.length⟩

/-- Function `RollingChecksum::roll` from `rolling.rs`.  `window_size as u32` is
the truncating cast `% 2^32`, and the `u32` product `n * old` wraps,
hence the explicit `% U32`.  The additions and subtractions around them
cannot leave `u32` range for any state produced by `new`/`update`/`roll`
(where `a, b < MOD`), so they are plain `Nat` operations. -/
def roll (st : RollingChecksum) (old_byte new_byte window_size : Nat) :
    RollingChecksum :=
  let old := old_byte
  let n := window_size % U32
  let a1 := (st.a + MOD - old + new_byte) % MOD
  let b1 := (st.b + MOD + a1 - 1 - (n * old % U32) % MOD) % MOD
  ⟨a1, b1, st.count⟩

/-- Function `RollingChecksum::compute` from `rolling.rs`. -/
def compute (data : List Nat) : Nat := value (update new data)

end RollingChecksum

/-- One iteration of `adler32_scalar`'s loop
(`a = (a + byte) % MOD; b = (b + a) % MOD`, with `b` reading the already
updated `a`). -/
def scalarStep (st : Nat × Nat) (x : Nat) : Nat × Nat :=
  ((st.1 + x) % MOD, (st.2 + (st.1 + x) % MOD) % MOD)

/-- Function `adler32_scalar` from the test module of `rolling.rs`: the scalar
reference implementation. -/
def adler32_scalar (data : List Nat) : Nat :=
  let r := data.foldl scalarStep (1, 0)
  (r.2 <<< 16) ||| r.1

/-- The weighted sum `Σ (n − i + 1) · x_i` (1-indexed from the front)
over a byte list, used to state closed forms of the Adler recurrence. -/
def wsum : List Nat → Nat
  | [] => 0
  | x :: xs => (xs.length + 1) * x + wsum xs

/-- Modelled from the claim's words (claim C8): the value the spec's
formula predicts — `a = 1 + Σ x_i mod 65521`,
`b = Σ (n − i + 1)·x_i mod 65521`, combined as `(b<<16) | a`.
(Note the formula's `b` has no `n·1` term.) -/
def adlerSpecFormula (data : List Nat) : Nat :=
  ((wsum data % MOD) <<< 16) ||| ((1 + data.sum) % MOD)

/-- The descending list `[n, n-1, …, 1]`. -/
def countdown : Nat → List Nat
  | 0 => []
  | n + 1 => (n + 1) :: countdown n

/-- The prefix-sum term accumulated by `process_chunk`'s `p` variable:
each block's sum is weighted by the number of blocks after it. -/
def pref : List (List Nat) → Nat
  | [] => 0
  | b :: rest => rest.length * b.sum + pref rest

/-- The byte sequence of claim C9's counterexample: `2^25 + 2` copies of
the byte `0xFF`. -/
def c9_s : List Nat := List.replicate (2 ^ 25 + 2) 255

/-- The window length of claim C9's counterexample. -/
def c9_B : Nat := 2 ^ 25

/-! ## The delta engine (`src/lib.rs`) -/

deriving instance DecidableEq for Except

/-- Model of `blake3::hash`: a collision-free fingerprint of a block,
modelled as the block content itself (so fingerprint equality is content
equality; every statement about hash matching holds up to BLAKE3
collision-freedom). -/
def blake3_hash (block : List Nat) : List Nat := block

/-- The `ChunkSignature` struct from `lib.rs`. -/
structure ChunkSignature where
  index : Nat
  hash : List Nat
deriving DecidableEq

/-- The `Signature` struct from `lib.rs`. -/
structure Signature where
  chunk_size : Nat
  chunks : List ChunkSignature
deriving DecidableEq

/-- The `DeltaOp` enum from `lib.rs`. -/
inductive DeltaOp where
  | Copy (index : Nat)
  | Insert (data : List Nat)
deriving DecidableEq

/-- The `Delta` struct from `lib.rs`. -/
structure Delta where
  chunk_size : Nat
  ops : List DeltaOp
  final_size : Nat
deriving DecidableEq

/-- Constant `DEFAULT_CHUNK_SIZE` from `lib.rs` (4096 bytes). -/
def DEFAULT_CHUNK_SIZE : Nat := 4096

/-- Constant `TARGET_BATCH_SIZE` from `lib.rs` (256 KiB). -/
def TARGET_BATCH_SIZE : Nat := 256 * 1024

/-- Function `read_exact_or_eof` from `lib.rs`, on a pure in-memory reader:
reads up to `buf_len` bytes.  Returns the bytes read (fewer than
`buf_len` only at end of stream, `[]` at EOF — never an error) and the
rest of the stream.  The interrupted-read retry of the source is
invisible for a pure reader. -/
def read_exact_or_eof (reader : List Nat) (buf_len : Nat) :
    List Nat × List Nat :=
  (reader.take buf_len, reader.drop buf_len)

/-- The loop of `signature_with_chunk_size`: read `chunk_size` bytes at
a time until a zero-length read, pushing `ChunkSignature` records with
increasing indices.  Fueled recursion (the wrapper supplies
`reader.length + 1`, more than enough). -/
def sigChunksGo (cs : Nat) : Nat → List Nat → Nat → List ChunkSignature
  | 0, _, _ => []
  | fuel + 1, reader, index =>
    let r := read_exact_or_eof reader cs
    if r.1.length = 0 then []
    else ⟨index, blake3_hash r.1⟩ :: sigChunksGo cs fuel r.2 (index + 1)

/-- The chunk-record list the signature loop produces (with enough
fuel). -/
def sigChunksOf (reader : List Nat) (cs : Nat) : List ChunkSignature :=
  sigChunksGo cs (reader.length + 1) reader 0

/-- Function `signature_with_chunk_size` from `lib.rs`.  On a pure reader it
never fails, so the `io::Result` is always `ok`. -/
def signature_with_chunk_size (reader : List Nat) (chunk_size : Nat) :
    Except String Signature :=
  .ok ⟨chunk_size, sigChunksOf reader chunk_size⟩

/-- Function `signature` from `lib.rs`: `signature_with_chunk_size` at
`DEFAULT_CHUNK_SIZE`. -/
def signature (reader : List Nat) : Except String Signature :=
  signature_with_chunk_size reader DEFAULT_CHUNK_SIZE

/-- The `hash_to_index` map of `delta` in `lib.rs`: a `HashMap`
built with `extend` over `sig.chunks`, so a LATER chunk with the same
hash overwrites an earlier one.  Lookup is modelled by a left fold that
keeps the last match. -/
def hashToIndex (chunks : List ChunkSignature) (h : List Nat) :
    Option Nat :=
  chunks.foldl (fun acc c => if c.hash = h then some c.index else acc) none

/-- The `batch_size` computation of `delta` in `lib.rs`. -/
def batchSize (chunk_size : Nat) : Nat :=
  if 256 * 1024 ≤ chunk_size then chunk_size
  else
    let multiple := TARGET_BATCH_SIZE / chunk_size
    let s := multiple * chunk_size
    if s = 0 then chunk_size else s

/-- The inner chunk loop of `delta` in `lib.rs`
(`for (i, chunk) in valid_buffer.chunks(chunk_size).enumerate()`),
over the already-enumerated chunk list.  State: `literal_start`, the
emitted `ops`, and the `pending_literal` buffer.  On a hash hit the
target bytes between `literal_start` and the chunk offset join the
pending literal, the pending literal is flushed as one `Insert` if
non-empty, a `Copy` is pushed and `literal_start` jumps past the chunk.
(The source guards the slice append with `chunk_offset > literal_start`;
an empty slice makes that guard redundant.)  Returns
`(ops, pending_literal, literal_start)`. -/
def innerChunksLoop (sigchunks : List ChunkSignature) (cs : Nat)
    (valid : List Nat) :
    List (Nat × List Nat) → Nat → List DeltaOp → List Nat →
    List DeltaOp × List Nat × Nat
  | [], lstart, ops, pending => (ops, pending, lstart)
  | (i, c) :: rest, lstart, ops, pending =>
    match hashToIndex sigchunks (blake3_hash c) with
    | some idx =>
      let chunk_offset := i * cs
      let pending1 :=
        pending ++ (valid.drop lstart).take (chunk_offset - lstart)
      let ops1 :=
        if pending1 = [] then ops else ops ++ [DeltaOp.Insert pending1]
      innerChunksLoop sigchunks cs valid rest (chunk_offset + c.length)
        (ops1 ++ [DeltaOp.Copy idx]) []
    | none => innerChunksLoop sigchunks cs valid rest lstart ops pending

/-- One iteration of the batch loop of `delta` in `lib.rs`: run the
inner chunk loop over the batch just read, then append the bytes after
`literal_start` to the pending literal
(`if literal_start < valid_buffer.len()`; `drop` makes the guard
redundant). -/
def innerBatch (sigchunks : List ChunkSignature) (cs : Nat)
    (valid : List Nat) (ops : List DeltaOp) (pending : List Nat) :
    List DeltaOp × List Nat :=
  let r := innerChunksLoop sigchunks cs valid
    (chunksOf cs valid).enum 0 ops pending
  (r.1, r.2.1 ++ valid.drop r.2.2)

/-- The batch loop of `delta` in `lib.rs`: read `batch_size` bytes at a
time until a zero-length read, tracking `total_size`.  Fueled recursion
(the wrapper supplies `new_data.length + 1`). -/
def batchGo (sigchunks : List ChunkSignature) (cs bs : Nat) :
    Nat → List Nat → List DeltaOp → List Nat → Nat →
    List DeltaOp × List Nat × Nat
  | 0, _, ops, pending, total => (ops, pending, total)
  | fuel + 1, new_data, ops, pending, total =>
    let r := read_exact_or_eof new_data bs
    if r.1.length = 0 then (ops, pending, total)
    else
      let ib := innerBatch sigchunks cs r.1 ops pending
      batchGo sigchunks cs bs fuel r.2 ib.1 ib.2 (total + r.1.length)

/-- Function `delta` from `lib.rs`: early `ok` return on `chunk_size = 0`
(an explicit branch in the source, not an error), then the batch loop
followed by the final flush of the remaining pending literal.  On a
pure reader it never fails. -/
def delta (new_data : List Nat) (sig : Signature) : Except String Delta :=
  let chunk_size := sig.chunk_size
  if chunk_size = 0 then .ok ⟨0, [], 0⟩
  else
    let bs := batchSize chunk_size
    let r := batchGo sig.chunks chunk_size bs
      (new_data.length + 1) new_data [] [] 0
    let ops := if r.2.1 = [] then r.1 else r.1 ++ [DeltaOp.Insert r.2.1]
    .ok ⟨chunk_size, ops, r.2.2⟩

/-- The value `2^64`, the wrap-around modulus of Rust's `u64`: the seek
offset of `apply` is computed as the `u64` product
`(*index as u64) * (chunk_size as u64)`, which wraps modulo `2^64`. -/
def U64 : Nat := 18446744073709551616

/-- The loop body of `apply` in `lib.rs`: a `Copy(index)` seeks the base
to `index * chunk_size` and writes the (up to `chunk_size`) bytes that
`read_exact_or_eof` returns there — at end of base that is fewer bytes,
or none, with NO error; an `Insert` writes its payload.
This variant models the `u64` offset product as exact `Nat`
multiplication; it agrees with the fully faithful `applyStepU64` below
whenever `index * chunk_size < 2^64` (see `apply_eq_applyU64`) — in
particular on every delta the builder itself produces against a
representable base, where `index * chunk_size` is below the base's byte
length.  Inputs on which the two differ involve either an adversarial
`Copy` index (claim C7's malformed-delta domain, which uses
`applyStepU64`) or a base of at least `2^64` bytes, which no Rust slice
can be. -/
def applyStep (old_data : List Nat) (cs : Nat) (out : List Nat)
    (op : DeltaOp) : List Nat :=
  match op with
  | DeltaOp.Copy index =>
    out ++ (read_exact_or_eof (old_data.drop (index * cs)) cs).1
  | DeltaOp.Insert d => out ++ d

/-- The loop body of `apply` in `lib.rs` with the wrap of the `u64`
seek-offset product `(*index as u64) * (chunk_size as u64)` made
explicit (`% 2^64`): fully faithful also for adversarial `Copy`
indices. -/
def applyStepU64 (old_data : List Nat) (cs : Nat) (out : List Nat)
    (op : DeltaOp) : List Nat :=
  match op with
  | DeltaOp.Copy index =>
    out ++ (read_exact_or_eof (old_data.drop (index * cs % U64)) cs).1
  | DeltaOp.Insert d => out ++ d

/-- Function `apply` from `lib.rs`.  With a pure seekable base and an in-memory
output, no operation can fail, so the result is always `ok`.
Exact-offset variant; see `applyStep` and `applyU64`. -/
def apply (old_data : List Nat) (dlt : Delta) : Except String (List Nat) :=
  .ok (dlt.ops.foldl (applyStep old_data dlt.chunk_size) [])

/-- Function `apply` from `lib.rs` with the `u64` wrap of the seek
offset made explicit; agrees with `apply` whenever every Copy index
satisfies `index * chunk_size < 2^64` (`apply_eq_applyU64`). -/
def applyU64 (old_data : List Nat) (dlt : Delta) :
    Except String (List Nat) :=
  .ok (dlt.ops.foldl (applyStepU64 old_data dlt.chunk_size) [])

/-- Function `apply_to_vec` from `lib.rs`: allocate a vector with capacity
`dlt.final_size` and `apply` into it. -/
def apply_to_vec (original : List Nat) (dlt : Delta) :
    Except String (List Nat) :=
  apply original dlt

/-- The capacity argument `apply_to_vec` passes to
`Vec::with_capacity`. -/
def apply_to_vec_capacity (dlt : Delta) : Nat := dlt.final_size

/-- The per-chunk effect of `delta`'s scan, with the deferred
`literal_start` bookkeeping resolved: an unmatched chunk joins the
pending literal; a matched chunk flushes the pending literal (if
non-empty) as one `Insert` and emits a `Copy`.  The batched loop of
`delta` is proved equal to a fold of this step over the block-aligned
chunks of the whole target. -/
def procChunk (sigchunks : List ChunkSignature)
    (st : List DeltaOp × List Nat) (c : List Nat) :
    List DeltaOp × List Nat :=
  match hashToIndex sigchunks (blake3_hash c) with
  | some idx =>
    ((if st.2 = [] then st.1 else st.1 ++ [DeltaOp.Insert st.2])
      ++ [DeltaOp.Copy idx], [])
  | none => (st.1, st.2 ++ c)

/-- Final flush of the pending literal. -/
def flushOps (st : List DeltaOp × List Nat) : List DeltaOp :=
  if st.2 = [] then st.1 else st.1 ++ [DeltaOp.Insert st.2]

/-- The op list `delta` produces, as a plain fold (see `procChunk`). -/
def deltaSpecOps (sigchunks : List ChunkSignature) (cs : Nat)
    (data : List Nat) : List DeltaOp :=
  flushOps ((chunksOf cs data).foldl (procChunk sigchunks) ([], []))

/-- The pure byte effect of `apply` (see `applyStep`). -/
def applyOps (old_data : List Nat) (cs : Nat) (ops : List DeltaOp) :
    List Nat :=
  ops.foldl (applyStep old_data cs) []

/-- The base byte sequence of claim C2: 1 MiB of `i mod 256`. -/
def c2_base : List Nat := (List.range 1048576).map (fun i => i % 256)

/-- The target of claim C2: `0xFF` prepended to the base. -/
def c2_target : List Nat := 255 :: c2_base

/-- The common content of every 4096-byte chunk of `c2_base`
(4096 is a multiple of the period 256). -/
def c2_chunk : List Nat := (List.range 4096).map (fun i => i % 256)

/-- The base of claim C4's example:
`"AAAAAAAABBBBBBBBCCCCCCCCDDDDDDDD"` as bytes. -/
def c4_base : List Nat :=
  List.replicate 8 65 ++ List.replicate 8 66
    ++ List.replicate 8 67 ++ List.replicate 8 68

/-! ## Closed forms for the Adler recurrence -/

theorem MOD_eq : MOD = 65521 := rfl

theorem weights_eq_countdown : WEIGHTS = countdown 32 := by decide

theorem zip_countdown_sum (l : List Nat) :
    (List.zipWith (· * ·) l (countdown l.length)).sum = wsum l := by
  induction l with
  | nil => simp [wsum]
  | cons x xs ih =>
    simp only [List.length_cons, countdown, List.zipWith_cons_cons,
      List.sum_cons, wsum, ih]
    ring

theorem wsum_append (u v : List Nat) :
    wsum (u ++ v) = wsum u + v.length * u.sum + wsum v := by
  induction u with
  | nil => simp [wsum]
  | cons x xs ih =>
    rw [List.cons_append]
    show ((xs ++ v).length + 1) * x + wsum (xs ++ v) = _
    rw [ih, List.length_append]
    show _ = (xs.length + 1) * x + wsum xs + v.length * (x + xs.sum) + wsum v
    ring

theorem zipWith_add_sum (u v : List Nat) (h : u.length = v.length) :
    (List.zipWith (· + ·) u v).sum = u.sum + v.sum := by
  induction u generalizing v with
  | nil => cases v <;> simp_all
  | cons x xs ih =>
    cases v with
    | nil => simp at h
    | cons y ys =>
      simp only [List.zipWith_cons_cons, List.sum_cons,
        ih ys (by simpa using h)]
      ring

theorem adlerStep_foldl (l : List Nat) (a b : Nat) :
    l.foldl adlerStep (a, b) = (a + l.sum, b + l.length * a + wsum l) := by
  induction l generalizing a b with
  | nil => simp [wsum]
  | cons x xs ih =>
    simp only [List.foldl_cons, adlerStep, ih, List.sum_cons,
      List.length_cons, wsum, Prod.mk.injEq]
    constructor
    · ring
    · ring

theorem simdStep_foldl (bs : List (List Nat)) :
    ∀ (p : Nat) (av : List Nat) (bc : Nat),
    (∀ blk ∈ bs, blk.length = 32) → av.length = 32 →
    (bs.foldl simdStep (p, av, bc)).1
        = p + bs.length * av.sum + pref bs ∧
    (bs.foldl simdStep (p, av, bc)).2.1.sum
        = av.sum + (bs.map List.sum).sum ∧
    (bs.foldl simdStep (p, av, bc)).2.2
        = bc + (bs.map wsum).sum := by
  induction bs with
  | nil => intro p av bc _ _; simp [pref]
  | cons blk rest ih =>
    intro p av bc hlen hav
    have hblk : blk.length = 32 := hlen blk (by simp)
    have hzip : (List.zipWith (· + ·) av blk).length = 32 := by
      simp [List.length_zipWith, hav, hblk]
    have hzsum : (List.zipWith (· + ·) av blk).sum = av.sum + blk.sum :=
      zipWith_add_sum av blk (by omega)
    have hrec := ih (p + av.sum) (List.zipWith (· + ·) av blk)
      (bc + (List.zipWith (· * ·) blk WEIGHTS).sum)
      (fun b hb => hlen b (by simp [hb])) hzip
    have hw : (List.zipWith (· * ·) blk WEIGHTS).sum = wsum blk := by
      rw [weights_eq_countdown, ← hblk, zip_countdown_sum]
    simp only [List.foldl_cons, simdStep] at hrec ⊢
    obtain ⟨h1, h2, h3⟩ := hrec
    refine ⟨?_, ?_, ?_⟩
    · rw [h1, hzsum]; simp only [pref, List.length_cons, List.sum_cons]; ring
    · rw [h2, hzsum]; simp only [List.map_cons, List.sum_cons]; ring
    · rw [h3, hw]; simp only [List.map_cons, List.sum_cons]; ring

theorem flatten_length32 (bs : List (List Nat))
    (h : ∀ b ∈ bs, b.length = 32) :
    bs.flatten.length = 32 * bs.length := by
  induction bs with
  | nil => simp
  | cons b rest ih =>
    simp only [List.flatten_cons, List.length_append, List.length_cons,
      h b (by simp), ih (fun x hx => h x (by simp [hx]))]
    ring

theorem wsum_flatten32 (bs : List (List Nat))
    (h : ∀ b ∈ bs, b.length = 32) :
    wsum bs.flatten = (bs.map wsum).sum + 32 * pref bs := by
  induction bs with
  | nil => simp [wsum, pref]
  | cons b rest ih =>
    have hrest : ∀ x ∈ rest, x.length = 32 := fun x hx => h x (by simp [hx])
    simp only [List.flatten_cons, wsum_append, List.map_cons, List.sum_cons,
      pref, ih hrest, flatten_length32 rest hrest, List.sum_flatten]
    ring

theorem chunksExactGo_spec (fuel : Nat) :
    ∀ l : List Nat, l.length ≤ fuel →
    (chunksExactGo fuel l).1.flatten ++ (chunksExactGo fuel l).2 = l ∧
    (∀ b ∈ (chunksExactGo fuel l).1, b.length = 32) ∧
    (chunksExactGo fuel l).2.length < 32 := by
  induction fuel with
  | zero =>
    intro l hl
    have : l = [] := List.eq_nil_of_length_eq_zero (by omega)
    subst this; simp [chunksExactGo]
  | succ fuel ih =>
    intro l hl
    by_cases h32 : 32 ≤ l.length
    · have hdrop : (l.drop 32).length ≤ fuel := by
        simp only [List.length_drop]; omega
      obtain ⟨hj, hb, hr⟩ := ih (l.drop 32) hdrop
      simp only [chunksExactGo, if_pos h32]
      refine ⟨?_, ?_, hr⟩
      · simp only [List.flatten_cons, List.append_assoc, hj,
          List.take_append_drop]
      · intro b hb'
        rcases List.mem_cons.mp hb' with h | h
        · subst h; simp [List.length_take]; omega
        · exact hb b h
    · simp only [chunksExactGo, if_neg h32]
      refine ⟨by simp, by simp, by omega⟩

theorem chunksExact32_spec (l : List Nat) :
    (chunksExact32 l).1.flatten ++ (chunksExact32 l).2 = l ∧
    (∀ b ∈ (chunksExact32 l).1, b.length = 32) ∧
    (chunksExact32 l).2.length < 32 :=
  chunksExactGo_spec (l.length + 1) l (by omega)

theorem processChunk_eq (a b : Nat) (data : List Nat) :
    RollingChecksum.processChunk a b data = data.foldl adlerStep (a, b) := by
  obtain ⟨hjoin, hblocks, _⟩ := chunksExact32_spec data
  obtain ⟨h1, h2, h3⟩ := simdStep_foldl (chunksExact32 data).1
    (a * (chunksExact32 data).1.length) (List.replicate 32 0) b hblocks
    (by simp)
  conv_rhs => rw [← hjoin, List.foldl_append]
  simp only [RollingChecksum.processChunk]
  congr 1
  rw [adlerStep_foldl, h1, h2, h3, List.sum_flatten,
    flatten_length32 _ hblocks, wsum_flatten32 _ hblocks]
  simp only [Prod.mk.injEq, List.sum_replicate, smul_eq_mul]
  constructor
  · ring
  · ring

/-! ## `chunksOf` facts -/

theorem chunksOfGo_fuel (f1 : Nat) :
    ∀ (f2 cs : Nat) (l : List Nat), 0 < cs →
    l.length < f1 → l.length < f2 →
    chunksOfGo f1 cs l = chunksOfGo f2 cs l := by
  induction f1 with
  | zero => intro f2 cs l _ h1 _; omega
  | succ f1 ih =>
    intro f2 cs l hcs h1 h2
    cases f2 with
    | zero => omega
    | succ f2 =>
      by_cases hnil : l = []
      · subst hnil; simp [chunksOfGo]
      · have hlen : 0 < l.length := List.length_pos.mpr hnil
        have hd : (l.drop cs).length = l.length - cs := List.length_drop cs l
        simp only [chunksOfGo, if_neg hnil]
        rw [ih f2 cs (l.drop cs) hcs (by omega) (by omega)]

theorem chunksOf_nil (cs : Nat) : chunksOf cs [] = [] := rfl

theorem chunksOf_cons (cs : Nat) (l : List Nat) (hcs : 0 < cs)
    (hl : l ≠ []) :
    chunksOf cs l = l.take cs :: chunksOf cs (l.drop cs) := by
  have hlen : 0 < l.length := List.length_pos.mpr hl
  have hd : (l.drop cs).length = l.length - cs := List.length_drop cs l
  show chunksOfGo (l.length + 1) cs l = _
  rw [show chunksOfGo (l.length + 1) cs l
      = if l = [] then []
        else l.take cs :: chunksOfGo l.length cs (l.drop cs) from rfl,
    if_neg hl]
  show _ = l.take cs :: chunksOfGo ((l.drop cs).length + 1) cs (l.drop cs)
  congr 1
  exact chunksOfGo_fuel l.length ((l.drop cs).length + 1) cs (l.drop cs) hcs
    (by omega) (by omega)

theorem chunksOf_flatten (cs : Nat) (hcs : 0 < cs) :
    ∀ (n : Nat) (l : List Nat), l.length ≤ n →
    (chunksOf cs l).flatten = l := by
  intro n
  induction n with
  | zero =>
    intro l hl
    have : l = [] := List.eq_nil_of_length_eq_zero (by omega)
    subst this; simp [chunksOf_nil]
  | succ n ih =>
    intro l hl
    by_cases hnil : l = []
    · subst hnil; simp [chunksOf_nil]
    · have hlen : 0 < l.length := List.length_pos.mpr hnil
      rw [chunksOf_cons cs l hcs hnil]
      simp only [List.flatten_cons]
      rw [ih (l.drop cs) (by simp [List.length_drop]; omega),
        List.take_append_drop]

/-! ## The `update` and scalar closed forms -/

theorem updateChunkStep_foldl (n : Nat) :
    ∀ (data : List Nat) (a b : Nat), data.length ≤ n →
    a < MOD → b < MOD →
    (chunksOf CHUNK_SIZE data).foldl RollingChecksum.updateChunkStep (a, b)
      = ((a + data.sum) % MOD,
         (b + data.length * a + wsum data) % MOD) := by
  induction n with
  | zero =>
    intro data a b hl ha hb
    have : data = [] := List.eq_nil_of_length_eq_zero (by omega)
    subst this
    simp [chunksOf_nil, wsum, Nat.mod_eq_of_lt ha, Nat.mod_eq_of_lt hb]
  | succ n ih =>
    intro data a b hl ha hb
    by_cases hnil : data = []
    · subst hnil
      simp [chunksOf_nil, wsum, Nat.mod_eq_of_lt ha, Nat.mod_eq_of_lt hb]
    · have hK : 0 < CHUNK_SIZE := by decide
      have hlen : 0 < data.length := List.length_pos.mpr hnil
      rw [chunksOf_cons CHUNK_SIZE data hK hnil]
      set c := data.take CHUNK_SIZE with hc
      set rest := data.drop CHUNK_SIZE with hrest
      have hsplit : c ++ rest = data := List.take_append_drop _ _
      have hrl : rest.length = data.length - CHUNK_SIZE :=
        List.length_drop _ _
      simp only [List.foldl_cons]
      have hstep : RollingChecksum.updateChunkStep (a, b) c
          = ((a + c.sum) % MOD, (b + c.length * a + wsum c) % MOD) := by
        simp only [RollingChecksum.updateChunkStep, processChunk_eq,
          adlerStep_foldl]
      rw [hstep,
        ih rest ((a + c.sum) % MOD) ((b + c.length * a + wsum c) % MOD)
          (by omega) (Nat.mod_lt _ (by decide)) (Nat.mod_lt _ (by decide))]
      have hsum : data.sum = c.sum + rest.sum := by
        rw [← hsplit, List.sum_append]
      have hwsum : wsum data = wsum c + rest.length * c.sum + wsum rest := by
        rw [← hsplit, wsum_append]
      have hlen2 : data.length = c.length + rest.length := by
        rw [← hsplit, List.length_append]
      have hfst : ((a + c.sum) % MOD + rest.sum) % MOD
          = (a + data.sum) % MOD := by
        rw [Nat.mod_add_mod, hsum, Nat.add_assoc]
      have hsnd : ((b + c.length * a + wsum c) % MOD
            + rest.length * ((a + c.sum) % MOD) + wsum rest) % MOD
          = (b + data.length * a + wsum data) % MOD := by
        have hcong : (b + c.length * a + wsum c) % MOD
              + rest.length * ((a + c.sum) % MOD) + wsum rest
            ≡ b + c.length * a + wsum c
              + rest.length * (a + c.sum) + wsum rest [MOD MOD] := by
          exact Nat.ModEq.add
            (Nat.ModEq.add (Nat.mod_modEq _ _)
              (Nat.ModEq.mul_left _ (Nat.mod_modEq _ _)))
            (Nat.ModEq.refl _)
        have heq : b + c.length * a + wsum c
              + rest.length * (a + c.sum) + wsum rest
            = b + data.length * a + wsum data := by
          rw [hwsum, hlen2]; ring
        calc ((b + c.length * a + wsum c) % MOD
              + rest.length * ((a + c.sum) % MOD) + wsum rest) % MOD
            = (b + c.length * a + wsum c
              + rest.length * (a + c.sum) + wsum rest) % MOD := hcong
          _ = (b + data.length * a + wsum data) % MOD := by rw [heq]
      rw [hfst, hsnd]

theorem update_closed (st : RollingChecksum) (data : List Nat)
    (ha : st.a < MOD) (hb : st.b < MOD) :
    st.update data
      = ⟨(st.a + data.sum) % MOD,
         (st.b + data.length * st.a + wsum data) % MOD,
         st.count + data.length⟩ := by
  simp only [RollingChecksum.update]
  rw [updateChunkStep_foldl data.length data st.a st.b (le_refl _) ha hb]

theorem scalarStep_foldl (l : List Nat) :
    ∀ (a b : Nat), a < MOD → b < MOD →
    l.foldl scalarStep (a, b)
      = ((a + l.sum) % MOD, (b + l.length * a + wsum l) % MOD) := by
  induction l with
  | nil =>
    intro a b ha hb
    simp [wsum, Nat.mod_eq_of_lt ha, Nat.mod_eq_of_lt hb]
  | cons x xs ih =>
    intro a b ha hb
    simp only [List.foldl_cons, scalarStep]
    rw [ih ((a + x) % MOD) ((b + (a + x) % MOD) % MOD)
      (Nat.mod_lt _ (by decide)) (Nat.mod_lt _ (by decide))]
    have hfst : ((a + x) % MOD + xs.sum) % MOD
        = (a + (x :: xs).sum) % MOD := by
      rw [Nat.mod_add_mod, List.sum_cons, Nat.add_assoc]
    have hsnd : ((b + (a + x) % MOD) % MOD
          + xs.length * ((a + x) % MOD) + wsum xs) % MOD
        = (b + (x :: xs).length * a + wsum (x :: xs)) % MOD := by
      have hcong : (b + (a + x) % MOD) % MOD
            + xs.length * ((a + x) % MOD) + wsum xs
          ≡ (b + (a + x)) + xs.length * (a + x) + wsum xs [MOD MOD] := by
        exact Nat.ModEq.add
          (Nat.ModEq.add
            ((Nat.mod_modEq _ _).trans
              (Nat.ModEq.add_left b (Nat.mod_modEq _ _)))
            (Nat.ModEq.mul_left _ (Nat.mod_modEq _ _)))
          (Nat.ModEq.refl _)
      have heq : (b + (a + x)) + xs.length * (a + x) + wsum xs
          = b + (x :: xs).length * a + wsum (x :: xs) := by
        simp only [List.length_cons, wsum]; ring
      calc ((b + (a + x) % MOD) % MOD
            + xs.length * ((a + x) % MOD) + wsum xs) % MOD
          = ((b + (a + x)) + xs.length * (a + x) + wsum xs) % MOD := hcong
        _ = (b + (x :: xs).length * a + wsum (x :: xs)) % MOD := by rw [heq]
    rw [hfst, hsnd]

theorem compute_closed (data : List Nat) :
    RollingChecksum.compute data
      = (((data.length + wsum data) % MOD) <<< 16)
        ||| ((1 + data.sum) % MOD) := by
  simp only [RollingChecksum.compute, RollingChecksum.value]
  rw [update_closed RollingChecksum.new data (by decide) (by decide)]
  simp only [RollingChecksum.new]
  norm_num

theorem adler32_scalar_closed (data : List Nat) :
    adler32_scalar data
      = (((data.length + wsum data) % MOD) <<< 16)
        ||| ((1 + data.sum) % MOD) := by
  simp only [adler32_scalar]
  rw [scalarStep_foldl data 1 0 (by decide) (by decide)]
  norm_num

/-! ## Claim C8: bulk update versus the scalar reference -/

/-- Claim C8, counterexample.  The claim's scalar formula
(`b = Σ (n − i + 1)·x_i mod 65521`, with no `n` term) does not match the
code: already on the single byte `0x00` the bulk update yields
`0x00010001` while the claim's formula yields `0x00000001`.  The code
does agree with the repository's own scalar reference `adler32_scalar`
(whose `b` accumulates the initial `a = 1` once per byte). -/
theorem claim8_counterexample :
    RollingChecksum.compute [0] ≠ adlerSpecFormula [0] ∧
    RollingChecksum.compute [0] = adler32_scalar [0] := by
  constructor
  · decide
  · decide

/-- Claim C8, amended: for every byte sequence, the bulk-update rolling
checksum equals the scalar reference Adler-32, whose halves are
`a = (1 + Σ x_i) mod 65521` and `b = (n + Σ (n − i + 1)·x_i) mod 65521`
(the claim's formula corrected by the missing `n` term), combined as
`(b <<< 16) ||| a`. -/
theorem claim8_amended (data : List Nat) :
    RollingChecksum.compute data = adler32_scalar data ∧
    RollingChecksum.compute data
      = (((data.length + wsum data) % MOD) <<< 16)
        ||| ((1 + data.sum) % MOD) := by
  refine ⟨?_, compute_closed data⟩
  rw [compute_closed, adler32_scalar_closed]

/-! ## Claim C9: roll versus fresh update -/

theorem wsum_replicate (n c : Nat) :
    2 * wsum (List.replicate n c) = c * (n * (n + 1)) := by
  induction n with
  | zero => simp [wsum]
  | succ n ih =>
    rw [List.replicate_succ]
    have hunfold : wsum (c :: List.replicate n c)
        = (n + 1) * c + wsum (List.replicate n c) := by
      simp [wsum]
    rw [hunfold]
    calc 2 * ((n + 1) * c + wsum (List.replicate n c))
        = 2 * ((n + 1) * c) + 2 * wsum (List.replicate n c) := by ring
      _ = 2 * ((n + 1) * c) + c * (n * (n + 1)) := by rw [ih]
      _ = c * ((n + 1) * (n + 1 + 1)) := by ring

theorem update_new_closed (data : List Nat) :
    RollingChecksum.update RollingChecksum.new data
      = ⟨(1 + data.sum) % MOD, (data.length + wsum data) % MOD,
         data.length⟩ := by
  rw [update_closed RollingChecksum.new data (by decide) (by decide)]
  simp [RollingChecksum.new]

/-- Claim C9, counterexample.  For `s = replicate (2^25 + 2) 0xFF`,
window length `B = 2^25` and position `i = 0` (which satisfy the claim's
side conditions `B < |s|` and `i + B < |s|`), rolling the freshly
updated window does NOT reproduce the fresh value of the shifted window:
in `roll`, the `u32` product `n * old = 2^25 * 255` wraps modulo `2^32`,
which shifts `b` by `2^32 mod 65521 = 225`. -/
theorem claim9_counterexample :
    c9_B < c9_s.length ∧ 0 + c9_B < c9_s.length ∧
    RollingChecksum.value
      (RollingChecksum.roll
        (RollingChecksum.update RollingChecksum.new
          ((c9_s.drop 0).take c9_B))
        (c9_s.getD 0 0) (c9_s.getD (0 + c9_B) 0) c9_B)
    ≠ RollingChecksum.value
        (RollingChecksum.update RollingChecksum.new
          ((c9_s.drop 1).take c9_B)) := by
  have hlen : c9_s.length = 2 ^ 25 + 2 := by
    show (List.replicate (2 ^ 25 + 2) 255).length = 2 ^ 25 + 2
    rw [List.length_replicate]
  have h1 : (c9_s.drop 0).take c9_B = List.replicate (2 ^ 25) 255 := by
    show ((List.replicate (2 ^ 25 + 2) 255).drop 0).take c9_B = _
    simp only [c9_B]
    rw [List.drop_zero, List.take_replicate]
    exact congrArg (fun k => List.replicate k (255 : Nat)) (by omega)
  have h2 : (c9_s.drop 1).take c9_B = List.replicate (2 ^ 25) 255 := by
    show ((List.replicate (2 ^ 25 + 2) 255).drop 1).take c9_B = _
    simp only [c9_B]
    rw [List.drop_replicate, List.take_replicate]
    exact congrArg (fun k => List.replicate k (255 : Nat)) (by omega)
  have hg0 : c9_s.getD 0 0 = 255 := by
    have hb : (0 : Nat) < c9_s.length := by rw [hlen]; decide
    rw [List.getD_eq_getElem c9_s 0 hb]
    exact List.getElem_replicate ..
  have hgB : c9_s.getD (0 + c9_B) 0 = 255 := by
    have hb : 0 + c9_B < c9_s.length := by rw [hlen]; decide
    rw [List.getD_eq_getElem c9_s 0 hb]
    exact List.getElem_replicate ..
  have hwsum : wsum (List.replicate (2 ^ 25) 255) = 143552242400624640 := by
    have h2w := wsum_replicate (2 ^ 25) 255
    have hnum : 255 * ((2 ^ 25 : Nat) * (2 ^ 25 + 1))
        = 287104484801249280 := by norm_num
    omega
  have hsum : (List.replicate (2 ^ 25) 255).sum = 8556380160 := by
    rw [List.sum_replicate, smul_eq_mul]
    norm_num
  have hupd : RollingChecksum.update RollingChecksum.new
      (List.replicate (2 ^ 25) 255) = ⟨58292, 21769, 2 ^ 25⟩ := by
    rw [update_new_closed, hsum, hwsum,
      show (List.replicate (2 ^ 25) 255).length = 2 ^ 25 from
        List.length_replicate ..]
    norm_num [RollingChecksum.mk.injEq, MOD_eq]
  refine ⟨by rw [hlen]; decide, by rw [hlen]; decide, ?_⟩
  rw [h1, h2, hg0, hgB, hupd]
  simp only [c9_B]
  decide

/-- Claim C9, amended: roll equivalence holds once the window length is
small enough that the `u32` product inside `roll` cannot wrap — for
byte-valued data it suffices that `B ≤ 16843009 = ⌊(2^32 − 1) / 255⌋`.
For every byte sequence `s` (entries `< 256`), every such window length
`B` and every position `i` with `i + B < |s|` (which also gives
`B < |s|`): rolling the checksum freshly built over `s[i..i+B)` with
`roll(s[i], s[i+B], B)` yields the same `value()` as a fresh update over
`s[i+1..i+1+B)`. -/
theorem claim9_amended (s : List Nat) (B i : Nat)
    (hbytes : ∀ x ∈ s, x < 256) (hB : B ≤ 16843009)
    (hi : i + B < s.length) :
    RollingChecksum.value
      (RollingChecksum.roll
        (RollingChecksum.update RollingChecksum.new ((s.drop i).take B))
        (s.getD i 0) (s.getD (i + B) 0) B)
    = RollingChecksum.value
        (RollingChecksum.update RollingChecksum.new
          ((s.drop (i + 1)).take B)) := by
  have hiB : i < s.length := by omega
  have hold : s.getD i 0 = s[i] := List.getD_eq_getElem s 0 hiB
  have ho : s[i] < 256 := hbytes _ (List.getElem_mem hiB)
  cases B with
  | zero =>
    rw [hold, show i + 0 = i from rfl, hold]
    rw [List.take_zero, List.take_zero]
    have hemp : RollingChecksum.update RollingChecksum.new ([] : List Nat)
        = ⟨1, 0, 0⟩ := by
      rw [update_new_closed]
      decide
    rw [hemp]
    have hr : RollingChecksum.roll ⟨1, 0, 0⟩ s[i] s[i] 0 = ⟨1, 0, 0⟩ := by
      simp only [RollingChecksum.roll]
      have e1 : (1 + MOD - s[i] + s[i]) % MOD = 1 := by
        rw [show MOD = 65521 from rfl]
        omega
      rw [e1]
      have e2 : (0 + MOD + 1 - 1 - (0 % U32 * s[i] % U32) % MOD) % MOD
          = 0 := by
        rw [show MOD = 65521 from rfl, show U32 = 4294967296 from rfl]
        omega
      rw [e2]
    rw [hr]
  | succ m =>
    have hnew : s.getD (i + (m + 1)) 0 = s[i + (m + 1)] :=
      List.getD_eq_getElem s 0 hi
    have hdi : s.drop i = s[i] :: s.drop (i + 1) :=
      List.drop_eq_getElem_cons hiB
    have hw : (s.drop i).take (m + 1)
        = s[i] :: (s.drop (i + 1)).take m := by
      rw [hdi, List.take_succ_cons]
    have hmeq : (s.drop (i + 1))[m]? = some s[i + (m + 1)] := by
      rw [List.getElem?_drop]
      rw [show i + 1 + m = i + (m + 1) by omega]
      exact List.getElem?_eq_getElem hi
    have hw' : (s.drop (i + 1)).take (m + 1)
        = (s.drop (i + 1)).take m ++ [s[i + (m + 1)]] := by
      rw [List.take_succ, hmeq]
      rfl
    have hml : ((s.drop (i + 1)).take m).length = m := by
      rw [List.length_take, List.length_drop]
      omega
    rw [hold, hnew, hw, hw', update_new_closed, update_new_closed]
    have hn : (m + 1) % U32 = m + 1 := by
      rw [show U32 = 4294967296 from rfl]
      omega
    have hprod : (m + 1) * s[i] % U32 = (m + 1) * s[i] := by
      rw [show U32 = 4294967296 from rfl]
      have h1 : (m + 1) * s[i] ≤ 16843009 * 255 :=
        Nat.mul_le_mul hB (by omega)
      omega
    simp only [RollingChecksum.roll, RollingChecksum.value, hn, hprod]
    simp only [List.sum_cons, List.sum_append, List.length_cons,
      List.length_append, List.sum_singleton, List.length_singleton, hml]
    have hwsum1 : wsum (s[i] :: (s.drop (i + 1)).take m)
        = (m + 1) * s[i] + wsum ((s.drop (i + 1)).take m) := by
      show (((s.drop (i + 1)).take m).length + 1) * s[i]
          + wsum ((s.drop (i + 1)).take m) = _
      rw [hml]
    have hwsum2 : wsum ((s.drop (i + 1)).take m ++ [s[i + (m + 1)]])
        = wsum ((s.drop (i + 1)).take m)
          + ((s.drop (i + 1)).take m).sum + s[i + (m + 1)] := by
      rw [wsum_append]
      show _ + 1 * ((s.drop (i + 1)).take m).sum
          + (1 * s[i + (m + 1)] + wsum []) = _
      simp [wsum]
    rw [hwsum1, hwsum2]
    simp only [List.length_nil, List.sum_nil, Nat.add_zero, Nat.zero_add]
    have hsplit : ∀ (b1 a1 b2 a2 : Nat), b1 = b2 → a1 = a2 →
        ((b1 <<< 16) ||| a1) = ((b2 <<< 16) ||| a2) := by
      intro b1 a1 b2 a2 hb ha2
      rw [hb, ha2]
    apply hsplit
    · rw [show MOD = 65521 from rfl]
      generalize (m + 1) * s[i] = t
      generalize (List.take m (List.drop (i + 1) s)).sum = sm
      generalize wsum (List.take m (List.drop (i + 1) s)) = wm
      generalize s[i + (m + 1)] = nw
      omega
    · rw [show MOD = 65521 from rfl]
      generalize (List.take m (List.drop (i + 1) s)).sum = sm
      generalize s[i + (m + 1)] = nw
      omega

/-- Witness for claim C9's amended theorem at the concrete input
`s = [1, 2, 3, 4]`, `B = 2`, `i = 1`. -/
theorem claim9_witness :
    (∀ x ∈ ([1, 2, 3, 4] : List Nat), x < 256) ∧ (2 : Nat) ≤ 16843009 ∧
    1 + 2 < ([1, 2, 3, 4] : List Nat).length ∧
    RollingChecksum.value
      (RollingChecksum.roll
        (RollingChecksum.update RollingChecksum.new
          ((([1, 2, 3, 4] : List Nat).drop 1).take 2))
        (([1, 2, 3, 4] : List Nat).getD 1 0)
        (([1, 2, 3, 4] : List Nat).getD (1 + 2) 0) 2)
    = RollingChecksum.value
        (RollingChecksum.update RollingChecksum.new
          ((([1, 2, 3, 4] : List Nat).drop (1 + 1)).take 2)) :=
  ⟨by decide, by decide, by decide,
   claim9_amended [1, 2, 3, 4] 2 1 (by decide) (by decide) (by decide)⟩

/-! ## The batched delta loop equals a plain fold over aligned chunks -/

theorem innerChunksLoop_eq (sigchunks : List ChunkSignature) (cs : Nat)
    (hcs : 0 < cs) (valid : List Nat) :
    ∀ (n : Nat) (v : List Nat) (j lstart : Nat) (ops : List DeltaOp)
      (pending : List Nat),
    v.length ≤ n → v = valid.drop (j * cs) → lstart ≤ j * cs →
    ((innerChunksLoop sigchunks cs valid
        (List.enumFrom j (chunksOf cs v)) lstart ops pending).1,
     (innerChunksLoop sigchunks cs valid
        (List.enumFrom j (chunksOf cs v)) lstart ops pending).2.1
       ++ valid.drop
         (innerChunksLoop sigchunks cs valid
           (List.enumFrom j (chunksOf cs v)) lstart ops pending).2.2)
    = (chunksOf cs v).foldl (procChunk sigchunks)
        (ops, pending ++ (valid.drop lstart).take (j * cs - lstart)) := by
  intro n
  induction n with
  | zero =>
    intro v j lstart ops pending hn hv hls
    have hnil : v = [] := List.eq_nil_of_length_eq_zero (by omega)
    subst hnil
    have hlen : valid.length ≤ j * cs := List.drop_eq_nil_iff.mp hv.symm
    simp only [chunksOf_nil, List.enumFrom, innerChunksLoop, List.foldl_nil]
    rw [List.take_of_length_le (by rw [List.length_drop]; omega)]
  | succ n ih =>
    intro v j lstart ops pending hn hv hls
    by_cases hnil : v = []
    · subst hnil
      have hlen : valid.length ≤ j * cs := List.drop_eq_nil_iff.mp hv.symm
      simp only [chunksOf_nil, List.enumFrom, innerChunksLoop,
        List.foldl_nil]
      rw [List.take_of_length_le (by rw [List.length_drop]; omega)]
    · have hvpos : 0 < v.length := List.length_pos.mpr hnil
      have hsm : (j + 1) * cs = j * cs + cs := by ring
      have hjlt : j * cs < valid.length := by
        by_contra hc
        exact hnil (by rw [hv]; exact List.drop_eq_nil_iff.mpr (by omega))
      have hvl : v.length = valid.length - j * cs := by
        rw [hv, List.length_drop]
      have hv' : v.drop cs = valid.drop ((j + 1) * cs) := by
        rw [hv, List.drop_drop]
        congr 1
        ring
      rw [chunksOf_cons cs v hcs hnil]
      show ((innerChunksLoop sigchunks cs valid
          ((j, v.take cs) :: List.enumFrom (j + 1) (chunksOf cs (v.drop cs)))
          lstart ops pending).1, _) = _
      rcases hmatch : hashToIndex sigchunks (blake3_hash (v.take cs)) with
        _ | idx
      · -- no match: the chunk joins the pending literal
        simp only [innerChunksLoop, hmatch]
        rw [ih (v.drop cs) (j + 1) lstart ops pending
          (by rw [List.length_drop]; omega) hv' (by omega)]
        simp only [List.foldl_cons, procChunk, hmatch]
        congr 1
        congr 1
        rw [List.append_assoc]
        congr 1
        rw [show (j + 1) * cs - lstart = (j * cs - lstart) + cs by omega,
          List.take_add, List.drop_drop,
          show lstart + (j * cs - lstart) = j * cs by omega, hv]
      · -- match: flush the pending literal and emit a Copy
        simp only [innerChunksLoop, hmatch]
        have hls' : j * cs + (v.take cs).length ≤ (j + 1) * cs := by
          rw [List.length_take]
          omega
        rw [ih (v.drop cs) (j + 1) (j * cs + (v.take cs).length)
          ((if pending ++ (valid.drop lstart).take (j * cs - lstart) = []
            then ops
            else ops ++ [DeltaOp.Insert
              (pending ++ (valid.drop lstart).take (j * cs - lstart))])
            ++ [DeltaOp.Copy idx]) []
          (by rw [List.length_drop]; omega) hv' hls']
        simp only [List.foldl_cons, procChunk, hmatch]
        congr 1
        congr 1
        rw [List.nil_append]
        rcases le_or_lt cs v.length with hle | hlt
        · rw [show (j + 1) * cs - (j * cs + (v.take cs).length) = 0 by
            rw [List.length_take]; omega]
          rw [List.take_zero]
        · rw [List.drop_eq_nil_iff.mpr (by rw [List.length_take]; omega),
            List.take_nil]

theorem innerBatch_eq (sigchunks : List ChunkSignature) (cs : Nat)
    (hcs : 0 < cs) (valid : List Nat) (ops : List DeltaOp)
    (pending : List Nat) :
    innerBatch sigchunks cs valid ops pending
      = (chunksOf cs valid).foldl (procChunk sigchunks) (ops, pending) := by
  unfold innerBatch
  have henum : (chunksOf cs valid).enum
      = List.enumFrom 0 (chunksOf cs valid) := rfl
  rw [henum]
  have h := innerChunksLoop_eq sigchunks cs hcs valid valid.length valid
    0 0 ops pending (le_refl _)
    (by rw [Nat.zero_mul, List.drop_zero]) (by omega)
  simp only [Nat.zero_mul, Nat.sub_zero, List.take_zero,
    List.append_nil] at h
  exact h

theorem chunksOf_split (cs : Nat) (hcs : 0 < cs) (k : Nat) :
    ∀ data : List Nat,
    chunksOf cs data
      = chunksOf cs (data.take (k * cs)) ++ chunksOf cs (data.drop (k * cs)) := by
  induction k with
  | zero =>
    intro data
    simp [chunksOf_nil]
  | succ k ih =>
    intro data
    by_cases hd : data = []
    · subst hd
      simp [chunksOf_nil]
    · rw [chunksOf_cons cs data hcs hd]
      have h1 : data.take ((k + 1) * cs) ≠ [] := by
        rw [Ne, List.take_eq_nil_iff]
        push_neg
        constructor
        · positivity
        · exact hd
      rw [chunksOf_cons cs (data.take ((k + 1) * cs)) hcs h1]
      have h2 : (data.take ((k + 1) * cs)).take cs = data.take cs := by
        rw [List.take_take]
        congr 1
        have : cs ≤ (k + 1) * cs := Nat.le_mul_of_pos_left cs (by omega)
        omega
      have h3 : (data.take ((k + 1) * cs)).drop cs
          = (data.drop cs).take (k * cs) := by
        rw [List.drop_take]
        congr 1
        have : (k + 1) * cs = k * cs + cs := by ring
        omega
      have h4 : data.drop ((k + 1) * cs) = (data.drop cs).drop (k * cs) := by
        rw [List.drop_drop]
        congr 1
        ring
      rw [h2, h3, h4, List.cons_append]
      congr 1
      exact ih (data.drop cs)

theorem batchSize_spec (cs : Nat) (hcs : cs ≠ 0) :
    0 < batchSize cs ∧ cs ∣ batchSize cs := by
  unfold batchSize
  by_cases h : 256 * 1024 ≤ cs
  · rw [if_pos h]
    exact ⟨Nat.pos_of_ne_zero hcs, dvd_refl cs⟩
  · rw [if_neg h]
    have hm : 0 < TARGET_BATCH_SIZE / cs := by
      apply Nat.div_pos
      · show cs ≤ TARGET_BATCH_SIZE
        unfold TARGET_BATCH_SIZE
        omega
      · exact Nat.pos_of_ne_zero hcs
    have hs : TARGET_BATCH_SIZE / cs * cs ≠ 0 :=
      Nat.mul_ne_zero (by omega) hcs
    simp only [if_neg hs]
    exact ⟨Nat.pos_of_ne_zero hs, Dvd.intro_left _ rfl⟩

theorem batchGo_eq (sigchunks : List ChunkSignature) (cs bs : Nat)
    (hcs : 0 < cs) (hbs : 0 < bs) (hdvd : cs ∣ bs) :
    ∀ (fuel : Nat) (data : List Nat) (ops : List DeltaOp)
      (pending : List Nat) (total : Nat), data.length ≤ fuel →
    batchGo sigchunks cs bs fuel data ops pending total
      = (((chunksOf cs data).foldl (procChunk sigchunks) (ops, pending)).1,
         ((chunksOf cs data).foldl (procChunk sigchunks) (ops, pending)).2,
         total + data.length) := by
  intro fuel
  induction fuel with
  | zero =>
    intro data ops pending total hl
    have hd : data = [] := List.eq_nil_of_length_eq_zero (by omega)
    subst hd
    simp [batchGo, chunksOf_nil]
  | succ fuel ih =>
    intro data ops pending total hl
    by_cases hd : data = []
    · subst hd
      simp [batchGo, chunksOf_nil, read_exact_or_eof]
    · have hdl : 0 < data.length := List.length_pos.mpr hd
      have hne : ((read_exact_or_eof data bs).1).length ≠ 0 := by
        simp only [read_exact_or_eof, List.length_take]
        omega
      simp only [batchGo, if_neg hne]
      rw [innerBatch_eq sigchunks cs hcs]
      rw [ih (read_exact_or_eof data bs).2 _ _
        (total + ((read_exact_or_eof data bs).1).length)
        (by simp only [read_exact_or_eof, List.length_drop]; omega)]
      obtain ⟨k, hk⟩ := hdvd
      have hsplit := chunksOf_split cs hcs k data
      rw [show k * cs = bs by rw [hk]; ring] at hsplit
      rw [show (read_exact_or_eof data bs).1 = data.take bs from rfl,
        show (read_exact_or_eof data bs).2 = data.drop bs from rfl]
      rw [← List.foldl_append (procChunk sigchunks) _
        (chunksOf cs (data.take bs)) (chunksOf cs (data.drop bs)),
        ← hsplit]
      have hlen : (data.take bs).length + (data.drop bs).length
          = data.length := by
        rw [List.length_take, List.length_drop]
        omega
      rw [show total + (data.take bs).length + (data.drop bs).length
        = total + data.length by omega]

theorem delta_eq (new_data : List Nat) (sig : Signature)
    (h : sig.chunk_size ≠ 0) :
    delta new_data sig
      = .ok ⟨sig.chunk_size,
             deltaSpecOps sig.chunks sig.chunk_size new_data,
             new_data.length⟩ := by
  simp only [delta, if_neg h]
  obtain ⟨hbs, hdvd⟩ := batchSize_spec sig.chunk_size h
  rw [batchGo_eq sig.chunks sig.chunk_size (batchSize sig.chunk_size)
    (Nat.pos_of_ne_zero h) hbs hdvd (new_data.length + 1) new_data [] [] 0
    (by omega)]
  simp only [deltaSpecOps, flushOps, Nat.zero_add]

theorem delta_eq_fields (new_data : List Nat) (cs : Nat)
    (chunks : List ChunkSignature) (h : cs ≠ 0) :
    delta new_data ⟨cs, chunks⟩
      = .ok ⟨cs, deltaSpecOps chunks cs new_data, new_data.length⟩ :=
  delta_eq new_data ⟨cs, chunks⟩ h

/-! ## `apply` as a byte-effect concatenation -/

theorem applyStep_acc (old : List Nat) (cs : Nat) (op : DeltaOp)
    (acc : List Nat) :
    applyStep old cs acc op = acc ++ applyStep old cs [] op := by
  cases op <;> simp [applyStep]

theorem foldl_applyStep_acc (old : List Nat) (cs : Nat) :
    ∀ (ops : List DeltaOp) (acc : List Nat),
    ops.foldl (applyStep old cs) acc = acc ++ applyOps old cs ops := by
  intro ops
  induction ops with
  | nil => intro acc; simp [applyOps]
  | cons op rest ih =>
    intro acc
    show rest.foldl (applyStep old cs) (applyStep old cs acc op) = _
    rw [ih (applyStep old cs acc op), applyStep_acc, List.append_assoc]
    congr 1
    show _ = applyOps old cs (op :: rest)
    unfold applyOps
    rw [List.foldl_cons, ih (applyStep old cs [] op)]
    rfl

theorem applyOps_append (old : List Nat) (cs : Nat)
    (ops1 ops2 : List DeltaOp) :
    applyOps old cs (ops1 ++ ops2)
      = applyOps old cs ops1 ++ applyOps old cs ops2 := by
  unfold applyOps
  rw [List.foldl_append, foldl_applyStep_acc]
  rfl

theorem applyStepU64_eq_applyStep (old : List Nat) (cs : Nat)
    (out : List Nat) (op : DeltaOp)
    (h : ∀ idx, op = DeltaOp.Copy idx → idx * cs < U64) :
    applyStepU64 old cs out op = applyStep old cs out op := by
  cases op with
  | Copy idx =>
    show out ++ (read_exact_or_eof (old.drop (idx * cs % U64)) cs).1 = _
    rw [Nat.mod_eq_of_lt (h idx rfl)]
    rfl
  | Insert d => rfl

theorem apply_eq_applyU64 (old : List Nat) (d : Delta)
    (h : ∀ idx, DeltaOp.Copy idx ∈ d.ops → idx * d.chunk_size < U64) :
    applyU64 old d = apply old d := by
  have main : ∀ (ops : List DeltaOp) (acc : List Nat),
      (∀ idx, DeltaOp.Copy idx ∈ ops → idx * d.chunk_size < U64) →
      ops.foldl (applyStepU64 old d.chunk_size) acc
        = ops.foldl (applyStep old d.chunk_size) acc := by
    intro ops
    induction ops with
    | nil => intro acc _; rfl
    | cons op rest ih =>
      intro acc hops
      have hstep : applyStepU64 old d.chunk_size acc op
          = applyStep old d.chunk_size acc op := by
        apply applyStepU64_eq_applyStep
        intro idx hidx
        apply hops idx
        rw [hidx]
        exact List.mem_cons_self _ _
      rw [List.foldl_cons, List.foldl_cons, hstep]
      exact ih _ (fun idx hidx => hops idx (List.mem_cons_of_mem op hidx))
  show Except.ok (d.ops.foldl (applyStepU64 old d.chunk_size) [])
    = Except.ok (d.ops.foldl (applyStep old d.chunk_size) [])
  rw [main d.ops [] h]

/-! ## `hashToIndex` facts -/

theorem hashToIndex_go_some (h : List Nat) :
    ∀ (chunks : List ChunkSignature) (acc : Option Nat) (idx : Nat),
    chunks.foldl
      (fun acc c => if c.hash = h then some c.index else acc) acc
      = some idx →
    (∃ e ∈ chunks, e.hash = h ∧ e.index = idx) ∨ acc = some idx := by
  intro chunks
  induction chunks with
  | nil => intro acc idx hacc; exact Or.inr hacc
  | cons e rest ih =>
    intro acc idx hacc
    rcases ih _ idx hacc with ⟨f, hf, hfh, hfi⟩ | hacc'
    · exact Or.inl ⟨f, List.mem_cons_of_mem e hf, hfh, hfi⟩
    · dsimp only at hacc'
      by_cases he : e.hash = h
      · rw [if_pos he] at hacc'
        exact Or.inl ⟨e, List.mem_cons_self e rest, he,
          (Option.some.injEq _ _).mp hacc'⟩
      · rw [if_neg he] at hacc'
        exact Or.inr hacc'

theorem hashToIndex_some {chunks : List ChunkSignature} {h : List Nat}
    {idx : Nat} (hh : hashToIndex chunks h = some idx) :
    ∃ e ∈ chunks, e.hash = h ∧ e.index = idx := by
  rcases hashToIndex_go_some h chunks none idx hh with hx | hc
  · exact hx
  · simp at hc

theorem hashToIndex_go_isSome (h : List Nat) :
    ∀ (chunks : List ChunkSignature) (acc : Option Nat),
    ((∃ e ∈ chunks, e.hash = h) ∨ ∃ i, acc = some i) →
    ∃ i, chunks.foldl
      (fun acc c => if c.hash = h then some c.index else acc) acc
      = some i := by
  intro chunks
  induction chunks with
  | nil =>
    intro acc hyp
    rcases hyp with ⟨e, he, _⟩ | ⟨i, hi⟩
    · simp at he
    · exact ⟨i, hi⟩
  | cons f rest ih =>
    intro acc hyp
    rw [List.foldl_cons]
    rcases hyp with ⟨e, he, heh⟩ | ⟨i, hi⟩
    · rcases List.mem_cons.mp he with rfl | he'
      · exact ih _ (Or.inr ⟨e.index, by rw [if_pos heh]⟩)
      · exact ih _ (Or.inl ⟨e, he', heh⟩)
    · by_cases hf : f.hash = h
      · exact ih _ (Or.inr ⟨f.index, by rw [if_pos hf]⟩)
      · exact ih _ (Or.inr ⟨i, by rw [if_neg hf]; exact hi⟩)

theorem hashToIndex_isSome_of_mem {chunks : List ChunkSignature}
    {h : List Nat} (e : ChunkSignature) (he : e ∈ chunks)
    (hh : e.hash = h) : ∃ idx, hashToIndex chunks h = some idx :=
  hashToIndex_go_isSome h chunks none (Or.inl ⟨e, he, hh⟩)

theorem hashToIndex_go_none (h : List Nat) :
    ∀ (chunks : List ChunkSignature) (acc : Option Nat),
    (∀ e ∈ chunks, e.hash ≠ h) →
    chunks.foldl
      (fun acc c => if c.hash = h then some c.index else acc) acc
      = acc := by
  intro chunks
  induction chunks with
  | nil => intro acc _; rfl
  | cons f rest ih =>
    intro acc hall
    rw [List.foldl_cons, if_neg (hall f (List.mem_cons_self f rest)),
      ih acc (fun e he => hall e (List.mem_cons_of_mem f he))]

theorem hashToIndex_none {chunks : List ChunkSignature} {h : List Nat}
    (hall : ∀ e ∈ chunks, e.hash ≠ h) : hashToIndex chunks h = none :=
  hashToIndex_go_none h chunks none hall

/-! ## The signature chunk records -/

theorem sigChunksGo_mem (cs : Nat) (hcs : 0 < cs) :
    ∀ (fuel : Nat) (data : List Nat) (idx0 : Nat) (e : ChunkSignature),
    data.length ≤ fuel → e ∈ sigChunksGo cs fuel data idx0 →
    ∃ k, e.index = idx0 + k
      ∧ e.hash = blake3_hash ((data.drop (k * cs)).take cs)
      ∧ data.drop (k * cs) ≠ [] := by
  intro fuel
  induction fuel with
  | zero =>
    intro data idx0 e _ hm
    simp [sigChunksGo] at hm
  | succ fuel ih =>
    intro data idx0 e hl hm
    by_cases hd : data = []
    · subst hd
      simp [sigChunksGo, read_exact_or_eof] at hm
    · have hdl : 0 < data.length := List.length_pos.mpr hd
      have htl : ¬((read_exact_or_eof data cs).1.length = 0) := by
        simp only [read_exact_or_eof, List.length_take]
        omega
      simp only [sigChunksGo, if_neg htl] at hm
      rcases List.mem_cons.mp hm with he | he
      · refine ⟨0, by rw [he]; rfl, ?_, ?_⟩
        · rw [he]
          show blake3_hash (data.take cs) = _
          rw [Nat.zero_mul, List.drop_zero]
        · rw [Nat.zero_mul, List.drop_zero]
          exact hd
      · obtain ⟨k, hi, hh, hne⟩ := ih (data.drop cs) (idx0 + 1) e
          (by rw [List.length_drop]; omega) he
        rw [List.drop_drop] at hh hne
        refine ⟨k + 1, by omega, ?_, ?_⟩
        · rw [hh]
          congr 3
          ring
        · rw [show (k + 1) * cs = cs + k * cs by ring]
          exact hne

theorem sigChunksGo_mem_of (cs : Nat) (hcs : 0 < cs) :
    ∀ (fuel : Nat) (data : List Nat) (idx0 k : Nat),
    data.length ≤ fuel → data.drop (k * cs) ≠ [] →
    (⟨idx0 + k, blake3_hash ((data.drop (k * cs)).take cs)⟩ :
        ChunkSignature) ∈ sigChunksGo cs fuel data idx0 := by
  intro fuel
  induction fuel with
  | zero =>
    intro data idx0 k hl hne
    have hd : data = [] := List.eq_nil_of_length_eq_zero (by omega)
    subst hd
    simp at hne
  | succ fuel ih =>
    intro data idx0 k hl hne
    have hd : data ≠ [] := by
      intro hc
      subst hc
      simp at hne
    have hdl : 0 < data.length := List.length_pos.mpr hd
    have htl : ¬((read_exact_or_eof data cs).1.length = 0) := by
      simp only [read_exact_or_eof, List.length_take]
      omega
    simp only [sigChunksGo, if_neg htl]
    cases k with
    | zero =>
      rw [Nat.zero_mul, List.drop_zero, Nat.add_zero]
      exact List.mem_cons_self _ _
    | succ k =>
      apply List.mem_cons_of_mem
      have hne' : (data.drop cs).drop (k * cs) ≠ [] := by
        rw [List.drop_drop, show cs + k * cs = (k + 1) * cs by ring]
        exact hne
      have := ih (data.drop cs) (idx0 + 1) k
        (by rw [List.length_drop]; omega) hne'
      rw [List.drop_drop, show cs + k * cs = (k + 1) * cs by ring,
        show idx0 + 1 + k = idx0 + (k + 1) by omega] at this
      exact this

/-! ## Round trip -/

theorem applyOps_insert (old : List Nat) (cs : Nat) (l : List Nat) :
    applyOps old cs [DeltaOp.Insert l] = l := by
  simp [applyOps, applyStep]

theorem flushOps_apply (old : List Nat) (cs : Nat)
    (st : List DeltaOp × List Nat) :
    applyOps old cs (flushOps st) = applyOps old cs st.1 ++ st.2 := by
  unfold flushOps
  by_cases h : st.2 = []
  · rw [if_pos h, h, List.append_nil]
  · rw [if_neg h, applyOps_append, applyOps_insert]

theorem procChunk_foldl_apply (old : List Nat) (cs : Nat)
    (sigchunks : List ChunkSignature)
    (Hmatch : ∀ (c : List Nat) (idx : Nat),
      hashToIndex sigchunks (blake3_hash c) = some idx →
      (old.drop (idx * cs)).take cs = c) :
    ∀ (chunks : List (List Nat)) (ops : List DeltaOp)
      (pending : List Nat),
    applyOps old cs (chunks.foldl (procChunk sigchunks) (ops, pending)).1
        ++ (chunks.foldl (procChunk sigchunks) (ops, pending)).2
      = applyOps old cs ops ++ pending ++ chunks.flatten := by
  intro chunks
  induction chunks with
  | nil => intro ops pending; simp
  | cons c rest ih =>
    intro ops pending
    simp only [List.foldl_cons, List.flatten_cons]
    rcases hm : hashToIndex sigchunks (blake3_hash c) with _ | idx
    · simp only [procChunk, hm]
      rw [ih ops (pending ++ c)]
      simp [List.append_assoc]
    · simp only [procChunk, hm]
      rw [ih _ []]
      rw [applyOps_append]
      have hc : applyOps old cs [DeltaOp.Copy idx] = c := by
        show [] ++ (read_exact_or_eof (old.drop (idx * cs)) cs).1 = c
        rw [List.nil_append]
        exact Hmatch c idx hm
      have hf : applyOps old cs
          (if pending = [] then ops else ops ++ [DeltaOp.Insert pending])
          = applyOps old cs ops ++ pending := by
        by_cases hp : pending = []
        · rw [if_pos hp, hp, List.append_nil]
        · rw [if_neg hp, applyOps_append, applyOps_insert]
      rw [hc, hf]
      simp [List.append_assoc]

theorem deltaSpecOps_apply (base data : List Nat) (cs : Nat)
    (hcs : 0 < cs) :
    applyOps base cs (deltaSpecOps (sigChunksOf base cs) cs data)
      = data := by
  have Hmatch : ∀ (c : List Nat) (idx : Nat),
      hashToIndex (sigChunksOf base cs) (blake3_hash c) = some idx →
      (base.drop (idx * cs)).take cs = c := by
    intro c idx hh
    obtain ⟨e, hem, heh, hei⟩ := hashToIndex_some hh
    obtain ⟨k, hki, hkh, _⟩ := sigChunksGo_mem cs hcs (base.length + 1)
      base 0 e (by omega) hem
    have hik : idx = k := by omega
    subst hik
    show (base.drop (idx * cs)).take cs = c
    have h1 : blake3_hash ((base.drop (idx * cs)).take cs)
        = blake3_hash c := by rw [← hkh, heh]
    exact h1
  unfold deltaSpecOps
  rw [flushOps_apply, procChunk_foldl_apply base cs _ Hmatch
    (chunksOf cs data) [] []]
  rw [show applyOps base cs [] = [] from rfl, List.nil_append,
    List.nil_append]
  exact chunksOf_flatten cs hcs data.length data (le_refl _)

/-- Claim C1: for every base and target byte sequence, computing the
base's signature (default chunk size 4096), building the delta of the
target against it, and applying that delta to the base reconstructs the
target exactly (always with `ok` results — no error is possible for
in-memory sources). -/
theorem claim1_round_trip (base target : List Nat) :
    (signature base).bind (fun sig =>
      (delta target sig).bind (fun d => apply_to_vec base d))
      = Except.ok target := by
  show ((signature_with_chunk_size base DEFAULT_CHUNK_SIZE).bind
    (fun sig => (delta target sig).bind
      (fun d => apply_to_vec base d))) = _
  rw [show signature_with_chunk_size base DEFAULT_CHUNK_SIZE
    = Except.ok ⟨DEFAULT_CHUNK_SIZE, sigChunksOf base DEFAULT_CHUNK_SIZE⟩
    from rfl]
  show (delta target
      ⟨DEFAULT_CHUNK_SIZE, sigChunksOf base DEFAULT_CHUNK_SIZE⟩).bind
    (fun d => apply_to_vec base d) = _
  rw [delta_eq target
    ⟨DEFAULT_CHUNK_SIZE, sigChunksOf base DEFAULT_CHUNK_SIZE⟩
    (by show DEFAULT_CHUNK_SIZE ≠ 0; decide)]
  show apply_to_vec base
    ⟨DEFAULT_CHUNK_SIZE,
     deltaSpecOps (sigChunksOf base DEFAULT_CHUNK_SIZE)
       DEFAULT_CHUNK_SIZE target,
     target.length⟩ = _
  show Except.ok (applyOps base DEFAULT_CHUNK_SIZE
    (deltaSpecOps (sigChunksOf base DEFAULT_CHUNK_SIZE)
      DEFAULT_CHUNK_SIZE target)) = _
  rw [deltaSpecOps_apply base target DEFAULT_CHUNK_SIZE (by decide)]

theorem chunksOf_mem (cs : Nat) (hcs : 0 < cs) :
    ∀ (n : Nat) (l c : List Nat), l.length ≤ n → c ∈ chunksOf cs l →
    ∃ k, l.drop (k * cs) ≠ [] ∧ c = (l.drop (k * cs)).take cs := by
  intro n
  induction n with
  | zero =>
    intro l c hl hm
    have : l = [] := List.eq_nil_of_length_eq_zero (by omega)
    subst this
    simp [chunksOf_nil] at hm
  | succ n ih =>
    intro l c hl hm
    by_cases hd : l = []
    · subst hd
      simp [chunksOf_nil] at hm
    · have hdl : 0 < l.length := List.length_pos.mpr hd
      rw [chunksOf_cons cs l hcs hd] at hm
      rcases List.mem_cons.mp hm with he | he
      · exact ⟨0, by rw [Nat.zero_mul, List.drop_zero]; exact hd,
          by rw [Nat.zero_mul, List.drop_zero]; exact he⟩
      · obtain ⟨k, hne, hc⟩ := ih (l.drop cs) c
          (by rw [List.length_drop]; omega) he
        rw [List.drop_drop] at hne hc
        exact ⟨k + 1,
          by rw [show (k + 1) * cs = cs + k * cs by ring]; exact hne,
          by rw [show (k + 1) * cs = cs + k * cs by ring]; exact hc⟩

theorem procChunk_foldl_all_match (sigchunks : List ChunkSignature) :
    ∀ (chunks : List (List Nat)) (ops : List DeltaOp),
    (∀ c ∈ chunks, ∃ i, hashToIndex sigchunks (blake3_hash c) = some i) →
    (∀ op ∈ ops, ∀ l, op ≠ DeltaOp.Insert l) →
    (chunks.foldl (procChunk sigchunks) (ops, [])).2 = [] ∧
    (∀ op ∈ (chunks.foldl (procChunk sigchunks) (ops, [])).1,
      ∀ l, op ≠ DeltaOp.Insert l) := by
  intro chunks
  induction chunks with
  | nil => intro ops _ hops; exact ⟨rfl, hops⟩
  | cons c rest ih =>
    intro ops hall hops
    obtain ⟨i, hi⟩ := hall c (List.mem_cons_self c rest)
    simp only [List.foldl_cons, procChunk, hi, if_pos rfl]
    apply ih (ops ++ [DeltaOp.Copy i])
      (fun x hx => hall x (List.mem_cons_of_mem c hx))
    intro op hop l
    rcases List.mem_append.mp hop with h1 | h1
    · exact hops op h1 l
    · rw [List.mem_singleton.mp h1]
      intro hc
      cases hc

/-- Claim C3: for every base, the delta of the base against its own
signature (default chunk size) contains zero Insert commands, and
applying it to the base reproduces the base. -/
theorem claim3_identity_no_inserts (base : List Nat) :
    ∃ d : Delta,
      (signature base).bind (fun sig => delta base sig) = Except.ok d ∧
      (∀ op ∈ d.ops, ∀ l, op ≠ DeltaOp.Insert l) ∧
      apply base d = Except.ok base := by
  have Hall : ∀ c ∈ chunksOf DEFAULT_CHUNK_SIZE base,
      ∃ i, hashToIndex (sigChunksOf base DEFAULT_CHUNK_SIZE)
        (blake3_hash c) = some i := by
    intro c hc
    obtain ⟨k, hne, hck⟩ := chunksOf_mem DEFAULT_CHUNK_SIZE (by decide)
      base.length base c (le_refl _) hc
    have hmem := sigChunksGo_mem_of DEFAULT_CHUNK_SIZE (by decide)
      (base.length + 1) base 0 k (by omega) hne
    exact hashToIndex_isSome_of_mem _ hmem (by rw [hck])
  have hfold := procChunk_foldl_all_match
    (sigChunksOf base DEFAULT_CHUNK_SIZE)
    (chunksOf DEFAULT_CHUNK_SIZE base) [] Hall (by intro op hop; cases hop)
  refine ⟨⟨DEFAULT_CHUNK_SIZE,
    deltaSpecOps (sigChunksOf base DEFAULT_CHUNK_SIZE)
      DEFAULT_CHUNK_SIZE base, base.length⟩, ?_, ?_, ?_⟩
  · show (signature_with_chunk_size base DEFAULT_CHUNK_SIZE).bind
      (fun sig => delta base sig) = _
    rw [show signature_with_chunk_size base DEFAULT_CHUNK_SIZE
      = Except.ok
        ⟨DEFAULT_CHUNK_SIZE, sigChunksOf base DEFAULT_CHUNK_SIZE⟩
      from rfl]
    show delta base
      ⟨DEFAULT_CHUNK_SIZE, sigChunksOf base DEFAULT_CHUNK_SIZE⟩ = _
    rw [delta_eq base
      ⟨DEFAULT_CHUNK_SIZE, sigChunksOf base DEFAULT_CHUNK_SIZE⟩
      (by show DEFAULT_CHUNK_SIZE ≠ 0; decide)]
  · show ∀ op ∈ deltaSpecOps (sigChunksOf base DEFAULT_CHUNK_SIZE)
      DEFAULT_CHUNK_SIZE base, ∀ l, op ≠ DeltaOp.Insert l
    unfold deltaSpecOps flushOps
    rw [if_pos hfold.1]
    exact hfold.2
  · show Except.ok (applyOps base DEFAULT_CHUNK_SIZE
      (deltaSpecOps (sigChunksOf base DEFAULT_CHUNK_SIZE)
        DEFAULT_CHUNK_SIZE base)) = _
    rw [deltaSpecOps_apply base base DEFAULT_CHUNK_SIZE (by decide)]

/-! ## No two consecutive Inserts -/

theorem getLast?_append_singleton (l : List DeltaOp) (a : DeltaOp) :
    (l ++ [a]).getLast? = some a := by
  induction l with
  | nil => rfl
  | cons x xs ih =>
    rw [List.cons_append, List.getLast?_cons, ih]
    cases xs <;> rfl

theorem procChunk_foldl_chain (sigchunks : List ChunkSignature) :
    ∀ (chunks : List (List Nat)) (ops : List DeltaOp)
      (pending : List Nat),
    List.Chain' (fun a b =>
      ¬((∃ l, a = DeltaOp.Insert l) ∧ (∃ l, b = DeltaOp.Insert l))) ops →
    (∀ op, ops.getLast? = some op → ∀ l, op ≠ DeltaOp.Insert l) →
    List.Chain' (fun a b =>
      ¬((∃ l, a = DeltaOp.Insert l) ∧ (∃ l, b = DeltaOp.Insert l)))
      (chunks.foldl (procChunk sigchunks) (ops, pending)).1 ∧
    (∀ op,
      (chunks.foldl (procChunk sigchunks) (ops, pending)).1.getLast?
        = some op → ∀ l, op ≠ DeltaOp.Insert l) := by
  intro chunks
  induction chunks with
  | nil => intro ops pending hchain hlast; exact ⟨hchain, hlast⟩
  | cons c rest ih =>
    intro ops pending hchain hlast
    rcases hm : hashToIndex sigchunks (blake3_hash c) with _ | idx
    · simp only [List.foldl_cons, procChunk, hm]
      exact ih ops (pending ++ c) hchain hlast
    · simp only [List.foldl_cons, procChunk, hm]
      set ops1 := if pending = [] then ops
        else ops ++ [DeltaOp.Insert pending] with hops1
      have hchain1 : List.Chain' (fun a b =>
          ¬((∃ l, a = DeltaOp.Insert l) ∧ (∃ l, b = DeltaOp.Insert l)))
          ops1 := by
        rw [hops1]
        by_cases hp : pending = []
        · rw [if_pos hp]; exact hchain
        · rw [if_neg hp, List.chain'_append]
          refine ⟨hchain, List.chain'_singleton _, ?_⟩
          intro x hx y hy
          rw [List.head?_cons, Option.mem_def] at hy
          injection hy with hy
          subst hy
          intro ⟨⟨l1, hl1⟩, _⟩
          exact hlast x (Option.mem_def.mp hx) l1 hl1
      have hchain2 : List.Chain' (fun a b =>
          ¬((∃ l, a = DeltaOp.Insert l) ∧ (∃ l, b = DeltaOp.Insert l)))
          (ops1 ++ [DeltaOp.Copy idx]) := by
        rw [List.chain'_append]
        refine ⟨hchain1, List.chain'_singleton _, ?_⟩
        intro x _ y hy
        rw [List.head?_cons, Option.mem_def] at hy
        injection hy with hy
        subst hy
        intro ⟨_, ⟨l2, hl2⟩⟩
        cases hl2
      have hlast2 : ∀ op, (ops1 ++ [DeltaOp.Copy idx]).getLast?
          = some op → ∀ l, op ≠ DeltaOp.Insert l := by
        intro op hop l
        rw [getLast?_append_singleton] at hop
        injection hop with hop
        subst hop
        intro hc
        cases hc
      exact ih _ [] hchain2 hlast2

/-- Claim C5: in every delta the builder produces, no two consecutive
commands are both Insert commands (unmatched bytes accumulate in the
pending literal, which is flushed as a single Insert only right before
a Copy or once at end of stream). -/
theorem claim5_no_consecutive_inserts (data : List Nat)
    (sig : Signature) (d : Delta) (h : delta data sig = Except.ok d) :
    List.Chain' (fun a b =>
      ¬((∃ l, a = DeltaOp.Insert l) ∧ (∃ l, b = DeltaOp.Insert l)))
      d.ops := by
  by_cases hcs : sig.chunk_size = 0
  · simp only [delta, if_pos hcs, Except.ok.injEq] at h
    rw [← h]
    exact List.chain'_nil
  · rw [delta_eq data sig hcs] at h
    rw [Except.ok.injEq] at h
    rw [← h]
    show List.Chain' _ (deltaSpecOps sig.chunks sig.chunk_size data)
    unfold deltaSpecOps
    obtain ⟨hch, hlast⟩ := procChunk_foldl_chain sig.chunks
      (chunksOf sig.chunk_size data) [] [] List.chain'_nil
      (by intro op hop; cases hop)
    unfold flushOps
    by_cases hp :
        ((chunksOf sig.chunk_size data).foldl (procChunk sig.chunks)
          ([], [])).2 = []
    · rw [if_pos hp]; exact hch
    · rw [if_neg hp, List.chain'_append]
      refine ⟨hch, List.chain'_singleton _, ?_⟩
      intro x hx y hy
      rw [List.head?_cons, Option.mem_def] at hy
      injection hy with hy
      subst hy
      intro ⟨⟨l1, hl1⟩, _⟩
      exact hlast x (Option.mem_def.mp hx) l1 hl1

/-- Witness for claim C5 at the concrete input of the adjacency
example: base `"AAAAAAAABBBBBBBBCCCCCCCCDDDDDDDD"`, chunk size 8. -/
theorem claim5_witness :
    delta c4_base ⟨8, sigChunksOf c4_base 8⟩
      = Except.ok ⟨8, [DeltaOp.Copy 0, DeltaOp.Copy 1, DeltaOp.Copy 2,
                       DeltaOp.Copy 3], 32⟩ ∧
    List.Chain' (fun a b =>
      ¬((∃ l, a = DeltaOp.Insert l) ∧ (∃ l, b = DeltaOp.Insert l)))
      ([DeltaOp.Copy 0, DeltaOp.Copy 1, DeltaOp.Copy 2,
        DeltaOp.Copy 3] :
        List DeltaOp) := by
  have hd : delta c4_base ⟨8, sigChunksOf c4_base 8⟩
      = Except.ok ⟨8, [DeltaOp.Copy 0, DeltaOp.Copy 1, DeltaOp.Copy 2,
                       DeltaOp.Copy 3], 32⟩ := by decide
  exact ⟨hd, claim5_no_consecutive_inserts c4_base
    ⟨8, sigChunksOf c4_base 8⟩ _ hd⟩

/-! ## Claim C4: adjacency coalescing -/

/-- Claim C4, counterexample.  For base = target =
`"AAAAAAAABBBBBBBBCCCCCCCCDDDDDDDD"` with block size 8, the delta is NOT
a single copy command covering base bytes 0..32: the builder emits one
`Copy` per matched block (`Copy` carries a block index, not a byte
range) and performs no coalescing, so the delta has four commands,
`Copy 0`, `Copy 1`, `Copy 2`, `Copy 3` — consecutive Copies of
perfectly adjacent base blocks. -/
theorem claim4_counterexample :
    (signature_with_chunk_size c4_base 8).bind
      (fun sig => delta c4_base sig)
      = Except.ok ⟨8, [DeltaOp.Copy 0, DeltaOp.Copy 1, DeltaOp.Copy 2,
                       DeltaOp.Copy 3], 32⟩ ∧
    ([DeltaOp.Copy 0, DeltaOp.Copy 1, DeltaOp.Copy 2,
      DeltaOp.Copy 3] : List DeltaOp).length ≠ 1 := by
  constructor
  · decide
  · decide

/-- Claim C4, amended: the delta builder emits one `Copy` per matched
block and never coalesces adjacent copies.  For the example (base =
target = `"AAAAAAAABBBBBBBBCCCCCCCCDDDDDDDD"`, block size 8) the delta
is the four commands `Copy 0 … Copy 3`, one per 8-byte block, and
applying it still reconstructs the base. -/
theorem claim4_amended :
    (signature_with_chunk_size c4_base 8).bind
      (fun sig => delta c4_base sig)
      = Except.ok ⟨8, [DeltaOp.Copy 0, DeltaOp.Copy 1, DeltaOp.Copy 2,
                       DeltaOp.Copy 3], 32⟩ ∧
    apply c4_base ⟨8, [DeltaOp.Copy 0, DeltaOp.Copy 1, DeltaOp.Copy 2,
                       DeltaOp.Copy 3], 32⟩ = Except.ok c4_base := by
  constructor
  · decide
  · decide

/-! ## Claim C6: chunk size zero -/

/-- Claim C6, counterexample.  Chunk size 0 is NOT reported as an
error: `signature_with_chunk_size` returns `ok` with an empty chunk
list (its first read is a zero-length read, which it treats as EOF),
and `delta` has an explicit early `return Ok` branch producing the
empty delta. -/
theorem claim6_counterexample :
    signature_with_chunk_size [1, 2, 3] 0 = Except.ok ⟨0, []⟩ ∧
    (¬∃ e, signature_with_chunk_size [1, 2, 3] 0 = Except.error e) ∧
    delta [1, 2, 3] ⟨0, []⟩ = Except.ok ⟨0, [], 0⟩ ∧
    (¬∃ e, delta [1, 2, 3] ⟨0, []⟩ = Except.error e) := by
  refine ⟨by decide, ?_, by decide, ?_⟩
  · intro ⟨e, he⟩
    rw [show signature_with_chunk_size [1, 2, 3] 0
      = Except.ok ⟨0, []⟩ from by decide] at he
    cases he
  · intro ⟨e, he⟩
    rw [show delta [1, 2, 3] ⟨0, []⟩ = Except.ok ⟨0, [], 0⟩
      from by decide] at he
    cases he

/-- Claim C6, amended: chunk size 0 is handled without error — for
every reader, `signature_with_chunk_size` returns `ok` with an empty
chunk list, and `delta` against any signature whose chunk size is 0
returns `ok` with the empty delta `⟨0, [], 0⟩`. -/
theorem claim6_amended (data : List Nat) :
    signature_with_chunk_size data 0 = Except.ok ⟨0, []⟩ ∧
    (∀ sig : Signature, sig.chunk_size = 0 →
      delta data sig = Except.ok ⟨0, [], 0⟩) := by
  constructor
  · have : sigChunksOf data 0 = [] := by
      unfold sigChunksOf
      cases data with
      | nil => rfl
      | cons x xs =>
        show sigChunksGo 0 (xs.length + 1 + 1) (x :: xs) 0 = []
        simp [sigChunksGo, read_exact_or_eof]
    show (Except.ok ⟨0, sigChunksOf data 0⟩ : Except String Signature)
      = Except.ok ⟨0, []⟩
    rw [this]
  · intro sig hcs
    simp only [delta, if_pos hcs]

/-- Witness for claim C6's amended theorem at a concrete input. -/
theorem claim6_witness :
    signature_with_chunk_size [9, 9] 0 = Except.ok ⟨0, []⟩ ∧
    ((⟨0, [⟨0, [1]⟩]⟩ : Signature).chunk_size = 0 ∧
      delta [9, 9] ⟨0, [⟨0, [1]⟩]⟩ = Except.ok ⟨0, [], 0⟩) :=
  ⟨(claim6_amended [9, 9]).1,
   rfl, (claim6_amended [9, 9]).2 ⟨0, [⟨0, [1]⟩]⟩ rfl⟩

/-! ## Claim C7: Copy past the end of the base -/

/-- Claim C7, counterexample.  A delta whose Copy range lies past the
end of the base does NOT make `apply` fail: `read_exact_or_eof` treats
end-of-file as a short (here zero-length) read, not an error, so
applying `Copy 3` with chunk size 2 against the one-byte base `[7]`
succeeds and writes nothing.  Stated for the fully faithful `applyU64`
(whose `u64` seek-offset wrap is explicit; here `3 * 2` is far below
`2^64`), with the exact-offset `apply` agreeing. -/
theorem claim7_counterexample :
    applyU64 [7] ⟨2, [DeltaOp.Copy 3], 2⟩ = Except.ok [] ∧
    (¬∃ e, applyU64 [7] ⟨2, [DeltaOp.Copy 3], 2⟩ = Except.error e) ∧
    apply [7] ⟨2, [DeltaOp.Copy 3], 2⟩ = Except.ok [] := by
  refine ⟨by decide, ?_, by decide⟩
  intro ⟨e, he⟩
  rw [show applyU64 [7] ⟨2, [DeltaOp.Copy 3], 2⟩ = Except.ok []
    from by decide] at he
  cases he

/-- Claim C7, amended: `apply` never fails on an out-of-range Copy.
For every base, chunk size, index and recorded size such that the
`u64` seek-offset product does not wrap (`idx * cs < 2^64`; for larger
indices the wrapped offset lands back inside the base and the Copy
reads from there instead), if the copy's byte range extends past the
base then applying the delta succeeds and the Copy contributes only
the bytes before end-of-file — strictly fewer than `chunk_size` of
them. -/
theorem claim7_amended (base : List Nat) (cs idx n : Nat)
    (hnowrap : idx * cs < U64)
    (hrange : base.length < idx * cs + cs) :
    ∃ out, applyU64 base ⟨cs, [DeltaOp.Copy idx], n⟩ = Except.ok out ∧
      out = (base.drop (idx * cs)).take cs ∧ out.length < cs := by
  refine ⟨(base.drop (idx * cs)).take cs, ?_, rfl, ?_⟩
  · show Except.ok
      ([] ++ (base.drop (idx * cs % U64)).take cs) = _
    rw [List.nil_append, Nat.mod_eq_of_lt hnowrap]
  · rw [List.length_take, List.length_drop]
    rcases Nat.eq_zero_or_pos cs with hc0 | hcpos
    · subst hc0
      simp at hrange
    · omega

/-- Witness for claim C7's amended theorem at the concrete input of the
counterexample. -/
theorem claim7_witness :
    3 * 2 < U64 ∧
    ([7] : List Nat).length < 3 * 2 + 2 ∧
    ∃ out, applyU64 [7] ⟨2, [DeltaOp.Copy 3], 2⟩ = Except.ok out ∧
      out = (([7] : List Nat).drop (3 * 2)).take 2 ∧ out.length < 2 :=
  ⟨by decide, by decide, claim7_amended [7] 2 3 2 (by decide) (by decide)⟩

/-! ## Claim C10: final_size -/

/-- Claim C10: for every signature with positive chunk size and every
target, the delta's `final_size` equals the target's byte length, and
`apply_to_vec` passes exactly `final_size` to `Vec::with_capacity`. -/
theorem claim10_final_size (data : List Nat) (sig : Signature)
    (d : Delta) (hcs : 0 < sig.chunk_size)
    (h : delta data sig = Except.ok d) :
    d.final_size = data.length ∧ apply_to_vec_capacity d = data.length := by
  rw [delta_eq data sig (by omega), Except.ok.injEq] at h
  rw [← h]
  exact ⟨rfl, rfl⟩

/-- Witness for claim C10 at a concrete input. -/
theorem claim10_witness :
    0 < (⟨2, []⟩ : Signature).chunk_size ∧
    delta [1, 2, 3] ⟨2, []⟩
      = Except.ok ⟨2, [DeltaOp.Insert [1, 2, 3]], 3⟩ ∧
    ((⟨2, [DeltaOp.Insert [1, 2, 3]], 3⟩ : Delta).final_size
        = ([1, 2, 3] : List Nat).length ∧
      apply_to_vec_capacity ⟨2, [DeltaOp.Insert [1, 2, 3]], 3⟩
        = ([1, 2, 3] : List Nat).length) :=
  ⟨by decide, by decide,
   claim10_final_size [1, 2, 3] ⟨2, []⟩ _ (by decide) (by decide)⟩

/-! ## Claim C2: the prepend example -/

theorem c2_base_length : c2_base.length = 1048576 := by
  unfold c2_base
  rw [List.length_map, List.length_range]

theorem c2_target_length : c2_target.length = 1048577 := by
  unfold c2_target
  rw [List.length_cons, c2_base_length]

theorem c2_chunk_length : c2_chunk.length = 4096 := by
  unfold c2_chunk
  rw [List.length_map, List.length_range]

theorem c2_base_getElem? (m : Nat) (hm : m < 1048576) :
    c2_base[m]? = some (m % 256) := by
  unfold c2_base
  rw [List.getElem?_map, List.getElem?_range hm]
  rfl

theorem c2_chunk_getElem0 : c2_chunk[0]? = some 0 := by
  unfold c2_chunk
  rw [List.getElem?_map, List.getElem?_range (by omega : (0:Nat) < 4096)]
  rfl

theorem c2_base_chunk (k : Nat) (hk : k < 256) :
    (c2_base.drop (k * 4096)).take 4096 = c2_chunk := by
  have hk4 : k * 4096 + 4096 ≤ 1048576 := by omega
  apply List.ext_getElem?
  intro i
  by_cases hi : i < 4096
  · rw [List.getElem?_take, if_pos hi, List.getElem?_drop,
      c2_base_getElem? (k * 4096 + i) (by omega)]
    unfold c2_chunk
    rw [List.getElem?_map, List.getElem?_range hi]
    show some ((k * 4096 + i) % 256) = some (i % 256)
    congr 1
    omega
  · rw [List.getElem?_take, if_neg hi]
    symm
    rw [List.getElem?_eq_none_iff, c2_chunk_length]
    omega

theorem c2_sig_hashes (e : ChunkSignature)
    (he : e ∈ sigChunksOf c2_base 4096) : e.hash = c2_chunk := by
  unfold sigChunksOf at he
  rw [c2_base_length] at he
  obtain ⟨k, _, hh, hne⟩ := sigChunksGo_mem 4096 (by omega)
    (1048576 + 1) c2_base 0 e (by rw [c2_base_length]; omega) he
  have hk : k < 256 := by
    by_contra hc
    apply hne
    rw [List.drop_eq_nil_iff, c2_base_length]
    push_neg at hc
    have : 256 * 4096 ≤ k * 4096 := Nat.mul_le_mul_right 4096 hc
    omega
  rw [hh]
  show (c2_base.drop (k * 4096)).take 4096 = c2_chunk
  exact c2_base_chunk k hk

theorem c2_target_getElem? (j : Nat) (hj : j * 4096 < 1048577) :
    c2_target[j * 4096]? = some 255 := by
  cases j with
  | zero =>
    rw [Nat.zero_mul]
    exact List.getElem?_cons_zero
  | succ j =>
    have h1 : 4096 ≤ (j + 1) * 4096 := by
      have := Nat.succ_mul j 4096
      omega
    have h2 : (j + 1) * 4096 = ((j + 1) * 4096 - 1) + 1 := by omega
    rw [h2]
    show (255 :: c2_base)[((j + 1) * 4096 - 1) + 1]? = some 255
    rw [List.getElem?_cons_succ,
      c2_base_getElem? ((j + 1) * 4096 - 1) (by omega)]
    congr 1
    have h3 : (j + 1) * 4096 = (j * 16 + 16) * 256 := by ring
    omega

theorem c2_target_chunk_ne (blk : List Nat)
    (hc : blk ∈ chunksOf 4096 c2_target) : blk ≠ c2_chunk := by
  obtain ⟨j, hne, hcj⟩ := chunksOf_mem 4096 (by omega) c2_target.length
    c2_target blk (le_refl _) hc
  have hjlt : j * 4096 < 1048577 := by
    by_contra hy
    apply hne
    rw [List.drop_eq_nil_iff, c2_target_length]
    omega
  intro heq
  have h0c : blk[0]? = some 255 := by
    rw [hcj, List.getElem?_take, if_pos (by omega), List.getElem?_drop]
    rw [Nat.add_zero]
    exact c2_target_getElem? j hjlt
  have hboth := congrArg (fun l : List Nat => l[0]?) heq
  simp only at hboth
  rw [h0c, c2_chunk_getElem0] at hboth
  cases hboth

theorem procChunk_foldl_no_match (sigchunks : List ChunkSignature) :
    ∀ (chunks : List (List Nat)) (ops : List DeltaOp)
      (pending : List Nat),
    (∀ c ∈ chunks, hashToIndex sigchunks (blake3_hash c) = none) →
    chunks.foldl (procChunk sigchunks) (ops, pending)
      = (ops, pending ++ chunks.flatten) := by
  intro chunks
  induction chunks with
  | nil => intro ops pending _; simp
  | cons c rest ih =>
    intro ops pending hall
    have hc := hall c (List.mem_cons_self c rest)
    simp only [List.foldl_cons, procChunk, hc]
    rw [ih (ops) (pending ++ c)
      (fun x hx => hall x (List.mem_cons_of_mem c hx))]
    simp [List.append_assoc]

theorem c2_delta :
    delta c2_target ⟨4096, sigChunksOf c2_base 4096⟩
      = Except.ok ⟨4096, [DeltaOp.Insert c2_target], 1048577⟩ := by
  rw [delta_eq_fields c2_target 4096 (sigChunksOf c2_base 4096)
    (by decide)]
  have hnone : ∀ c ∈ chunksOf 4096 c2_target,
      hashToIndex (sigChunksOf c2_base 4096) (blake3_hash c) = none := by
    intro c hc
    apply hashToIndex_none
    intro e he
    rw [c2_sig_hashes e he]
    show c2_chunk ≠ blake3_hash c
    intro hx
    exact c2_target_chunk_ne c hc hx.symm
  unfold deltaSpecOps
  rw [procChunk_foldl_no_match (sigChunksOf c2_base 4096)
    (chunksOf 4096 c2_target) [] [] hnone]
  rw [List.nil_append,
    chunksOf_flatten 4096 (by omega) c2_target.length c2_target
      (le_refl _)]
  unfold flushOps
  rw [if_neg (by unfold c2_target; intro hx; cases hx), c2_target_length]
  rfl

/-- Claim C2, counterexample.  For the 1 MiB base `i mod 256` and the
target `0xFF ++ base` with block size 4096, the delta does NOT contain
an `Insert` of `[0xFF]` together with Copies totalling 1 MiB: the
builder matches only block-ALIGNED target chunks, every aligned chunk
of the shifted target starts with the byte `0xFF ≠ 0x00` and so matches
no base chunk, and the delta degenerates to a single `Insert` of the
whole 1 048 577-byte target, with zero Copy commands. -/
theorem claim2_counterexample :
    (signature_with_chunk_size c2_base 4096).bind
      (fun sig => delta c2_target sig)
      = Except.ok ⟨4096, [DeltaOp.Insert c2_target], 1048577⟩ ∧
    (∀ op ∈ [DeltaOp.Insert c2_target], ∀ idx, op ≠ DeltaOp.Copy idx) ∧
    [DeltaOp.Insert c2_target] ≠ [DeltaOp.Insert [255]] := by
  refine ⟨?_, ?_, ?_⟩
  · show delta c2_target ⟨4096, sigChunksOf c2_base 4096⟩ = _
    exact c2_delta
  · intro op hop idx
    rw [List.mem_singleton.mp hop]
    intro hc
    cases hc
  · intro hx
    have h1 := congrArg (fun l : List DeltaOp =>
      match l with
      | DeltaOp.Insert d :: _ => d.length
      | _ => 0) hx
    simp only at h1
    rw [c2_target_length] at h1
    cases h1

/-- Claim C2, amended: for the 1 MiB base `i mod 256` and target
`0xFF ++ base` with block size 4096, the block-aligned delta builder
finds no matches, so the delta is exactly one `Insert` whose payload is
the whole 1 048 577-byte target and no Copy commands; applying it still
reconstructs the target. -/
theorem claim2_amended :
    delta c2_target ⟨4096, sigChunksOf c2_base 4096⟩
      = Except.ok ⟨4096, [DeltaOp.Insert c2_target], 1048577⟩ ∧
    apply c2_base ⟨4096, [DeltaOp.Insert c2_target], 1048577⟩
      = Except.ok c2_target := by
  refine ⟨c2_delta, ?_⟩
  show Except.ok ([] ++ c2_target) = _
  rw [List.nil_append]
